import Mathlib

/-!
Verification of the 3D-object-tracking TTC core (`camFusion_Student.cpp`).

This file gives a shallow embedding of the C++ functions
`clusterLidarWithROI`, `clusterKptMatchesWithROI`, `computeTTCCamera`,
`computeTTCLidar`, `get_max`, `matchBoundingBoxes`, `removeLidarOutlier`,
`clusterHelper` and `euclideanCluster`, and proves or refutes the design
properties stated for them.  Doubles are modelled as exact rationals,
except where the code takes Euclidean norms of 2-D pixel vectors, in
which case the distance lives in the real numbers.  Machine `int` values
are modelled as integers, with the C++ double-to-int conversion made
explicit as truncation toward zero.  The k-d tree (`KdTree::insert` /
`KdTree::search`), which lives in a header that is not part of this
source tree, is modelled from the spec as an exact closed-ball radius
search.
-/

/-- A lidar point: forward `x`, lateral `y`, height `z` in meters, and
the reflectivity payload `r` carried through unmodified. -/
structure LidarPoint where
  x : ℚ
  y : ℚ
  z : ℚ
  r : ℚ
deriving DecidableEq, Inhabited

/-- An axis-aligned pixel rectangle with `int` fields, as `cv::Rect`. -/
structure RectZ where
  x : ℤ
  y : ℤ
  width : ℤ
  height : ℤ
deriving DecidableEq, Inhabited

/-- A keypoint match: `queryIdx` indexes the previous frame's keypoint
list, `trainIdx` the current frame's, as in `cv::DMatch`. -/
structure DMatch where
  queryIdx : ℕ
  trainIdx : ℕ
deriving DecidableEq, Inhabited

/-- An object region (`BoundingBox` in `dataStructures.h`): a stable id,
a rectangle, and the two owned collections populated during
association. -/
structure BoundingBox where
  boxID : ℤ
  roi : RectZ
  lidarPoints : List LidarPoint
  kptMatches : List DMatch
deriving DecidableEq, Inhabited

/-- A frame: its detected regions and its keypoint pixel locations
(`cv::KeyPoint::pt`, exact rational pixel coordinates). -/
structure DataFrame where
  boundingBoxes : List BoundingBox
  keypoints : List (ℚ × ℚ)
deriving DecidableEq, Inhabited

/-- C++ double-to-int conversion: truncation toward zero. -/
def truncQ (q : ℚ) : ℤ := if 0 ≤ q then ⌊q⌋ else ⌈q⌉

/-- `cv::Rect::contains` on an integer point:
`x ≤ pt.x < x + width` and `y ≤ pt.y < y + height`. -/
def containsZ (r : RectZ) (p : ℤ × ℤ) : Prop :=
  r.x ≤ p.1 ∧ p.1 < r.x + r.width ∧ r.y ≤ p.2 ∧ p.2 < r.y + r.height

instance (r : RectZ) (p : ℤ × ℤ) : Decidable (containsZ r p) := by
  unfold containsZ; infer_instance

/-- `cv::Rect::contains` on a keypoint's exact pixel location. -/
def containsQ (r : RectZ) (p : ℚ × ℚ) : Prop :=
  (r.x : ℚ) ≤ p.1 ∧ p.1 < r.x + r.width ∧ (r.y : ℚ) ≤ p.2 ∧ p.2 < r.y + r.height

instance (r : RectZ) (p : ℚ × ℚ) : Decidable (containsQ r p) := by
  unfold containsQ; infer_instance

/-!  ## Projection of lidar points into the image (`clusterLidarWithROI`, lines 24-33)  -/

/-- Row-major element access on the 3x1 matrix `Y` (`cv::Mat::at(i, j)`
computes the flat offset `i * cols + j` with `cols = 1`; out-of-range
offsets never occur in the uses below). -/
def matAt31 (Y : Fin 3 → ℚ) (i j : ℕ) : ℚ :=
  if h : i * 1 + j < 3 then Y ⟨i * 1 + j, h⟩ else 0

/-- The homogeneous column vector `X = (x, y, z, 1)` built from a lidar
point. -/
def homog (p : LidarPoint) : Fin 4 → ℚ := ![p.x, p.y, p.z, 1]

/-- Projection of a lidar point to integer pixel coordinates:
`Y = P_rect_xx * R_rect_xx * RT * X`, then
`pt.x = Y.at(0,0) / Y.at(0,2)` and `pt.y = Y.at(1,0) / Y.at(0,2)`,
each assigned to an `int` field. -/
def projectLidar (P : Matrix (Fin 3) (Fin 4) ℚ) (R RT : Matrix (Fin 4) (Fin 4) ℚ)
    (p : LidarPoint) : ℤ × ℤ :=
  let Y := (P * R * RT).mulVec (homog p)
  (truncQ (matAt31 Y 0 0 / matAt31 Y 0 2), truncQ (matAt31 Y 1 0 / matAt31 Y 0 2))

/-!  ## Assignment of lidar points to regions (`clusterLidarWithROI`)  -/

/-- The shrunk box of lines 40-43: each field is a double expression
truncated by the `int` fields of `cv::Rect smallerBox`. -/
def shrinkRect (r : RectZ) (shrinkFactor : ℚ) : RectZ where
  x := truncQ ((r.x : ℚ) + shrinkFactor * (r.width : ℚ) / 2)
  y := truncQ ((r.y : ℚ) + shrinkFactor * (r.height : ℚ) / 2)
  width := truncQ ((r.width : ℚ) * (1 - shrinkFactor))
  height := truncQ ((r.height : ℚ) * (1 - shrinkFactor))

/-- The list of (positions of) bounding boxes whose shrunk rectangle
encloses the pixel `pix`, in box order (`enclosingBoxes`). -/
def enclosingIdx (bs : List BoundingBox) (shrinkFactor : ℚ) (pix : ℤ × ℤ) : List ℕ :=
  (List.range bs.length).filter
    (fun k => decide (containsZ (shrinkRect (bs.getD k default).roi shrinkFactor) pix))

/-- One iteration of the outer loop of `clusterLidarWithROI`: project the
point, collect the enclosing shrunk boxes, and append the point to the
box's `lidarPoints` only when exactly one box encloses it. -/
def assignPoint (P : Matrix (Fin 3) (Fin 4) ℚ) (R RT : Matrix (Fin 4) (Fin 4) ℚ)
    (shrinkFactor : ℚ) (bs : List BoundingBox) (p : LidarPoint) : List BoundingBox :=
  match enclosingIdx bs shrinkFactor (projectLidar P R RT p) with
  | [k] =>
      let b := bs.getD k default
      bs.set k { b with lidarPoints := b.lidarPoints ++ [p] }
  | _ => bs

/-- `clusterLidarWithROI`: groups of lidar points whose projection into
the camera falls into the same bounding box. -/
def clusterLidarWithROI (bs : List BoundingBox) (lidarPoints : List LidarPoint)
    (shrinkFactor : ℚ) (P : Matrix (Fin 3) (Fin 4) ℚ) (R RT : Matrix (Fin 4) (Fin 4) ℚ) :
    List BoundingBox :=
  lidarPoints.foldl (assignPoint P R RT shrinkFactor) bs

/-!  ## Euclidean clustering (`euclideanCluster`, `clusterHelper`, `removeLidarOutlier`)  -/

/-- Squared Euclidean distance between the 3-D coordinates of two lidar
points (the payload `r` takes no part in clustering). -/
def dist2 (p q : LidarPoint) : ℚ :=
  (p.x - q.x) ^ 2 + (p.y - q.y) ^ 2 + (p.z - q.z) ^ 2

/-- Modelled from the spec: `KdTree::insert` / `KdTree::search` live in a
header that is not part of this source tree; per the SpatialIndex
contract, `search(point, radius)` returns all inserted ids whose point
lies within Euclidean distance `radius` of `point` (closed ball), which
for a nonnegative radius is exactly `dist2 ≤ radius ^ 2`.  All points of
the frame are inserted with their positions as ids (lines 317-329). -/
def kdSearch (pts : List LidarPoint) (target : LidarPoint) (tol : ℚ) :
    List (Fin pts.length) :=
  (List.finRange pts.length).filter (fun j => decide (dist2 (pts.get j) target ≤ tol * tol))

lemma card_sdiff_insert_lt {α : Type} [Fintype α] [DecidableEq α] (pr : Finset α) (a : α)
    (h : a ∉ pr) : (Finset.univ \ insert a pr).card < (Finset.univ \ pr).card := by
  apply Finset.card_lt_card
  constructor
  · exact Finset.sdiff_subset_sdiff (le_refl _) (Finset.subset_insert a pr)
  · intro hsub
    have ha : a ∈ Finset.univ \ pr := by simp [h]
    have := hsub ha
    simp at this

/-- The recursive cluster expansion of `clusterHelper` (lines 354-368),
with the call stack made explicit so that the traversal order of the C++
recursion is preserved: the top stack entry is the remainder of the
`nearest` list currently being iterated.  Popping an index marks it
processed, appends it to the growing cluster, and pushes its `nearest`
list. -/
def clusterHelper (pts : List LidarPoint) (tol : ℚ) :
    List (List (Fin pts.length)) → List (Fin pts.length) → Finset (Fin pts.length) →
    List (Fin pts.length) × Finset (Fin pts.length)
  | [], cluster, processed => (cluster, processed)
  | [] :: stack, cluster, processed => clusterHelper pts tol stack cluster processed
  | (i :: rest) :: stack, cluster, processed =>
      if i ∈ processed then
        clusterHelper pts tol (rest :: stack) cluster processed
      else
        clusterHelper pts tol (kdSearch pts (pts.get i) tol :: rest :: stack)
          (cluster ++ [i]) (insert i processed)
termination_by stack _ processed =>
  (((Finset.univ : Finset (Fin pts.length)) \ processed).card,
    (stack.map List.length).sum + stack.length)
decreasing_by
  · apply Prod.Lex.right
    simp
  · apply Prod.Lex.right
    simp
    try omega
  · exact Prod.Lex.left _ _ (card_sdiff_insert_lt _ _ (by assumption))

/-- The outer loop of `euclideanCluster` (lines 378-391): scan the point
indices in order; every still-unprocessed index seeds a fresh cluster
grown by `clusterHelper`, appended to the cluster list. -/
def clusterLoop (pts : List LidarPoint) (tol : ℚ) (i : ℕ)
    (processed : Finset (Fin pts.length)) (clusters : List (List (Fin pts.length))) :
    List (List (Fin pts.length)) :=
  if h : i < pts.length then
    if (⟨i, h⟩ : Fin pts.length) ∈ processed then
      clusterLoop pts tol (i + 1) processed clusters
    else
      let r := clusterHelper pts tol [[⟨i, h⟩]] [] processed
      clusterLoop pts tol (i + 1) r.2 (clusters ++ [r.1])
  else clusters
termination_by pts.length - i

/-- `euclideanCluster`: partition the indices of `pts` into connected
components of the `tol`-neighborhood graph. -/
def euclideanCluster (pts : List LidarPoint) (tol : ℚ) : List (List (Fin pts.length)) :=
  clusterLoop pts tol 0 ∅ []

/-- `removeLidarOutlier` (lines 315-351): cluster the points and keep the
cluster with the greatest point count, the first such cluster winning
ties (strict `>` comparison while folding over the clusters). -/
def removeLidarOutlier (lidarPoints : List LidarPoint) (clusterTolerance : ℚ) :
    List LidarPoint :=
  (euclideanCluster lidarPoints clusterTolerance).foldl
    (fun maxCluster c =>
      let temp := c.map lidarPoints.get
      if maxCluster.length < temp.length then temp else maxCluster)
    []

/-!  ## Lidar TTC (`computeTTCLidar`, lines 228-265)  -/

/-- `computeTTCLidar`: clean both frames with `removeLidarOutlier` at
tolerance `0.1`, take the running minimum (seeded with `1e9`) of the
forward coordinate over cleaned points within half the `4.0` lane width,
and apply the constant-velocity formula. -/
def computeTTCLidar (lidarPointsPrev lidarPointsCurr : List LidarPoint)
    (frameRate : ℚ) : ℚ :=
  let dT := 1 / frameRate
  let lidarPointsPrevClustered := removeLidarOutlier lidarPointsPrev (1 / 10)
  let lidarPointsCurrClustered := removeLidarOutlier lidarPointsCurr (1 / 10)
  let minXPrev := lidarPointsPrevClustered.foldl
    (fun m p => if |p.y| ≤ 4 / 2 then (if p.x < m then p.x else m) else m) (10 ^ 9)
  let minXCurr := lidarPointsCurrClustered.foldl
    (fun m p => if |p.y| ≤ 4 / 2 then (if p.x < m then p.x else m) else m) (10 ^ 9)
  minXCurr * dT / (minXPrev - minXCurr)

/-- The claim's reading of the minimum: the least forward coordinate over
cleaned in-lane points, with the sentinel `1e9` only when no point
qualifies. -/
def claimMinX (l : List LidarPoint) : ℚ :=
  (((l.filter (fun p => decide (|p.y| ≤ 2))).map LidarPoint.x).min?).getD (10 ^ 9)

/-- The range-TTC computation exactly as the claim words it, for
comparison with `computeTTCLidar`. -/
def claimTTCLidar (lidarPointsPrev lidarPointsCurr : List LidarPoint)
    (frameRate : ℚ) : ℚ :=
  let minXPrev := claimMinX (removeLidarOutlier lidarPointsPrev (1 / 10))
  let minXCurr := claimMinX (removeLidarOutlier lidarPointsCurr (1 / 10))
  minXCurr * (1 / frameRate) / (minXPrev - minXCurr)

/-!  ## Camera-side distances and the vision TTC (`computeTTCCamera`)  -/

open Classical

/-- `cv::norm` of the difference of two pixel locations: the Euclidean
distance, a real number. -/
noncomputable def ptDist (p q : ℚ × ℚ) : ℝ :=
  Real.sqrt (((p.1 : ℝ) - (q.1 : ℝ)) ^ 2 + ((p.2 : ℝ) - (q.2 : ℝ)) ^ 2)

/-- `std::numeric_limits<double>::epsilon()`. -/
noncomputable def dblEps : ℝ := 1 / 2 ^ 52

/-- Pixel displacement of a match: `cv::norm(kpCurr.pt - kpPrev.pt)`. -/
noncomputable def dispOf (kptsPrev kptsCurr : List (ℚ × ℚ)) (m : DMatch) : ℝ :=
  ptDist (kptsCurr.getD m.trainIdx (0, 0)) (kptsPrev.getD m.queryIdx (0, 0))

/-- The distance-ratio collection loop of `computeTTCCamera`
(lines 178-206): the outer iterator ranges over all matches but the
last, the inner iterator over all matches but the first, and the ratio
`distCurr / distPrev` is accepted whenever `distPrev` exceeds the double
epsilon and `distCurr` is at least `minDist = 100`. -/
noncomputable def codeRatios (kptsPrev kptsCurr : List (ℚ × ℚ)) (kptMatches : List DMatch) :
    List ℝ :=
  (List.range (kptMatches.length - 1)).flatMap (fun i =>
    (List.range (kptMatches.length - 1)).flatMap (fun j =>
      let distCurr := ptDist (kptsCurr.getD (kptMatches.getD i default).trainIdx (0, 0))
        (kptsCurr.getD (kptMatches.getD (j + 1) default).trainIdx (0, 0))
      let distPrev := ptDist (kptsPrev.getD (kptMatches.getD i default).queryIdx (0, 0))
        (kptsPrev.getD (kptMatches.getD (j + 1) default).queryIdx (0, 0))
      if dblEps < distPrev ∧ 100 ≤ distCurr then [distCurr / distPrev] else []))

/-- The tail of `computeTTCCamera` (lines 209-224): `NAN` (modelled as
`none`) exactly on an empty ratio list; otherwise sort, take
`medIndex = floor(size / 2)`, average the two middle entries for an even
count, and return `-dT / (1 - medDistRatio)`. -/
noncomputable def ttcCameraFromRatios (distRatios : List ℝ) (frameRate : ℝ) : Option ℝ :=
  if distRatios = [] then none
  else
    let sorted := distRatios.insertionSort (fun a b => a ≤ b)
    let medIndex := distRatios.length / 2
    let medDistRatio :=
      if distRatios.length % 2 = 0 then
        (sorted.getD (medIndex - 1) 0 + sorted.getD medIndex 0) / 2
      else sorted.getD medIndex 0
    let dT := 1 / frameRate
    some (-dT / (1 - medDistRatio))

/-- `computeTTCCamera` assembled from its two stages. -/
noncomputable def computeTTCCamera (kptsPrev kptsCurr : List (ℚ × ℚ))
    (kptMatches : List DMatch) (frameRate : ℝ) : Option ℝ :=
  ttcCameraFromRatios (codeRatios kptsPrev kptsCurr kptMatches) frameRate

/-- The claim's median of a sorted list: the average of the two central
values for an even count, the single central value for an odd count. -/
noncomputable def centralMedian (s : List ℝ) : ℝ :=
  if s.length % 2 = 0 then (s.getD (s.length / 2 - 1) 0 + s.getD (s.length / 2) 0) / 2
  else s.getD (s.length / 2) 0

/-!  ## Assignment of matches to a region (`clusterKptMatchesWithROI`)  -/

/-- The in-place erase loop of lines 156-169: starting from position
`i`, erase the element under the cursor when `bad` holds for it (the
next element then slides into position `i`), otherwise advance the
cursor. -/
noncomputable def erasePass {α : Type} (bad : α → Prop) (l : List α) (i : ℕ) : List α :=
  if h : i < l.length then
    if bad (l.get ⟨i, h⟩) then erasePass bad (l.eraseIdx i) i
    else erasePass bad l (i + 1)
  else l
termination_by l.length - i
decreasing_by
  · simp [List.length_eraseIdx, h]
    omega
  · omega

/-- `clusterKptMatchesWithROI` (lines 134-170): append every match whose
current keypoint falls inside the region's rectangle, compute the mean
displacement over the collected matches, and erase every match whose
displacement is at least `ratio = 1.5` times that mean. -/
noncomputable def clusterKptMatchesWithROI (boundingBox : BoundingBox)
    (kptsPrev kptsCurr : List (ℚ × ℚ)) (kptMatches : List DMatch) : BoundingBox :=
  let accepted : List DMatch :=
    kptMatches.filter (fun m => decide (containsQ boundingBox.roi (kptsCurr.getD m.trainIdx (0, 0))))
  let bb1 := { boundingBox with kptMatches := boundingBox.kptMatches ++ accepted }
  let mean := ((bb1.kptMatches.map (dispOf kptsPrev kptsCurr)).sum) / (bb1.kptMatches.length : ℝ)
  { bb1 with
    kptMatches := erasePass (fun m => mean * (3 / 2) ≤ dispOf kptsPrev kptsCurr m)
      bb1.kptMatches 0 }

/-- Filtering a list by a proposition (classical), used to state what the
erase loop computes. -/
noncomputable def pfilter {α : Type} (p : α → Prop) (l : List α) : List α :=
  l.filter (fun x => decide (p x))

/-!  ## Cross-frame association (`matchBoundingBoxes`, `get_max`)  -/

/-- `std::map<int,int>` increment (`m[id] = 1` on a missing key, `m[id]++`
otherwise), on a key-sorted association list. -/
def bumpKey : List (ℤ × ℕ) → ℤ → List (ℤ × ℕ)
  | [], k => [(k, 1)]
  | (a, v) :: t, k =>
      if k < a then (k, 1) :: (a, v) :: t
      else if k = a then (a, v + 1) :: t
      else (a, v) :: bumpKey t k

/-- `get_max` (lines 268-276): `std::max_element` over the map's
key-sorted entries, comparing second components; the first maximal entry
wins; an empty map has no maximal entry (the C++ code dereferences the
end iterator there). -/
def get_max : List (ℤ × ℕ) → Option (ℤ × ℕ)
  | [] => none
  | h :: t => some (t.foldl (fun best c => if best.2 < c.2 then c else best) h)

/-- The vote map built for one previous-frame box (lines 283-305): for
every current box and every match, a vote for the current box's id
whenever the match's previous keypoint lies in the previous box and its
current keypoint lies in the current box. -/
def tallyVotes (matchList : List DMatch) (prevFrame currFrame : DataFrame)
    (prevBox : BoundingBox) : List (ℤ × ℕ) :=
  currFrame.boundingBoxes.foldl
    (fun m currBox =>
      matchList.foldl
        (fun m' mt =>
          if containsQ prevBox.roi (prevFrame.keypoints.getD mt.queryIdx (0, 0)) ∧
             containsQ currBox.roi (currFrame.keypoints.getD mt.trainIdx (0, 0))
          then bumpKey m' currBox.boxID else m')
        m)
    []

/-- `matchBoundingBoxes` (lines 279-312): one entry is written per
previous box, holding `get_max`'s first component; `none` stands for the
undefined value the C++ code obtains by dereferencing `end()` on an
empty vote map. -/
def matchBoundingBoxes (matchList : List DMatch) (prevFrame currFrame : DataFrame) :
    List (ℤ × Option ℤ) :=
  prevFrame.boundingBoxes.map
    (fun prevBox => (prevBox.boxID, (get_max (tallyVotes matchList prevFrame currFrame prevBox)).map Prod.fst))

/-- The number of votes the pair `(prevBox, k)` receives, as the claim
counts them: one per (current box with id `k`, match) pair whose
keypoints land in the two rectangles. -/
def voteCount (matchList : List DMatch) (prevFrame currFrame : DataFrame)
    (prevBox : BoundingBox) (k : ℤ) : ℕ :=
  (currFrame.boundingBoxes.map
    (fun currBox =>
      if currBox.boxID = k then
        matchList.countP (fun mt =>
          decide (containsQ prevBox.roi (prevFrame.keypoints.getD mt.queryIdx (0, 0)) ∧
            containsQ currBox.roi (currFrame.keypoints.getD mt.trainIdx (0, 0))))
      else 0)).sum

/-- The association rule exactly as the claim words it: the current
region with the highest vote count, ties broken by the order in which
current regions are encountered during tallying. -/
def claimBestMatch (matchList : List DMatch) (prevFrame currFrame : DataFrame)
    (prevBox : BoundingBox) : Option ℤ :=
  let counts := currFrame.boundingBoxes.map
    (fun currBox => (currBox.boxID,
      matchList.countP (fun mt =>
        decide (containsQ prevBox.roi (prevFrame.keypoints.getD mt.queryIdx (0, 0)) ∧
          containsQ currBox.roi (currFrame.keypoints.getD mt.trainIdx (0, 0))))))
  match (counts.map Prod.snd).max? with
  | none => none
  | some mx => if mx = 0 then none else (counts.find? (fun p => decide (p.2 = mx))).map Prod.fst

/-!  ## Lemmas about `get_max` and the vote map  -/

def keylt (a b : ℤ × ℕ) : Prop := a.1 < b.1

def lookupV (l : List (ℤ × ℕ)) (k : ℤ) : ℕ :=
  ((l.find? (fun p => decide (p.1 = k))).map Prod.snd).getD 0

lemma lookupV_nil (k : ℤ) : lookupV [] k = 0 := rfl

lemma lookupV_cons (a : ℤ × ℕ) (t : List (ℤ × ℕ)) (k : ℤ) :
    lookupV (a :: t) k = if a.1 = k then a.2 else lookupV t k := by
  by_cases h : a.1 = k <;> simp [lookupV, List.find?_cons, h]

lemma lookupV_eq_zero {l : List (ℤ × ℕ)} {k : ℤ} (h : ∀ p ∈ l, p.1 ≠ k) :
    lookupV l k = 0 := by
  induction l with
  | nil => rfl
  | cons a t ih =>
      rw [lookupV_cons, if_neg (h a (by simp))]
      exact ih (fun p hp => h p (by simp [hp]))

lemma mem_bumpKey_key {l : List (ℤ × ℕ)} {k : ℤ} {p : ℤ × ℕ} (h : p ∈ bumpKey l k) :
    p.1 = k ∨ p.1 ∈ l.map Prod.fst := by
  induction l with
  | nil => simp [bumpKey] at h; simp [h]
  | cons hd t ih =>
      obtain ⟨a, v⟩ := hd
      simp only [bumpKey] at h
      by_cases h1 : k < a
      · rw [if_pos h1] at h
        rcases List.mem_cons.1 h with h | h
        · left; simp [h]
        · right
          rcases List.mem_cons.1 h with h | h
          · simp [h]
          · simp only [List.map_cons, List.mem_cons]
            right; exact List.mem_map_of_mem Prod.fst h
      · by_cases h2 : k = a
        · rw [if_neg h1, if_pos h2] at h
          rcases List.mem_cons.1 h with h | h
          · left; simp [h, h2]
          · right
            simp only [List.map_cons, List.mem_cons]
            right; exact List.mem_map_of_mem Prod.fst h
        · rw [if_neg h1, if_neg h2] at h
          rcases List.mem_cons.1 h with h | h
          · right; simp [h]
          · rcases ih h with h3 | h3
            · exact Or.inl h3
            · right; simp only [List.map_cons, List.mem_cons];exact Or.inr h3

lemma bumpKey_pairwise {l : List (ℤ × ℕ)} (k : ℤ) (hp : l.Pairwise keylt) :
    (bumpKey l k).Pairwise keylt := by
  induction l with
  | nil => simp [bumpKey, keylt]
  | cons hd t ih =>
      obtain ⟨a, v⟩ := hd
      rw [List.pairwise_cons] at hp
      obtain ⟨ha, ht⟩ := hp
      simp only [bumpKey]
      by_cases h1 : k < a
      · rw [if_pos h1]
        refine List.Pairwise.cons ?_ (List.Pairwise.cons ha ht)
        intro p hp'
        rcases List.mem_cons.1 hp' with h | h
        · simp [keylt, h, h1]
        · have := ha p h
          simp only [keylt] at this ⊢
          omega
      · by_cases h2 : k = a
        · rw [if_neg h1, if_pos h2]
          exact List.Pairwise.cons (fun p hp' => ha p hp') ht
        · rw [if_neg h1, if_neg h2]
          refine List.Pairwise.cons ?_ (ih ht)
          intro p hp'
          rcases mem_bumpKey_key hp' with h3 | h3
          · simp only [keylt, h3]; omega
          · simp only [List.mem_map] at h3
            obtain ⟨q, hq, hq1⟩ := h3
            have := ha q hq
            simp only [keylt] at this ⊢
            omega

lemma bumpKey_pos {l : List (ℤ × ℕ)} (k : ℤ) (hv : ∀ p ∈ l, 1 ≤ p.2) :
    ∀ p ∈ bumpKey l k, 1 ≤ p.2 := by
  induction l with
  | nil => simp [bumpKey]
  | cons hd t ih =>
      obtain ⟨a, v⟩ := hd
      intro p hp
      simp only [bumpKey] at hp
      by_cases h1 : k < a
      · rw [if_pos h1] at hp
        rcases List.mem_cons.1 hp with h | h
        · simp [h]
        · exact hv p h
      · by_cases h2 : k = a
        · rw [if_neg h1, if_pos h2] at hp
          rcases List.mem_cons.1 hp with h | h
          · simp [h]
          · exact hv p (by simp [h])
        · rw [if_neg h1, if_neg h2] at hp
          rcases List.mem_cons.1 hp with h | h
          · exact hv p (by simp [h])
          · exact ih (fun q hq => hv q (by simp [hq])) p h

lemma lookupV_bumpKey {l : List (ℤ × ℕ)} (hp : l.Pairwise keylt) (k k' : ℤ) :
    lookupV (bumpKey l k) k' = lookupV l k' + (if k = k' then 1 else 0) := by
  induction l with
  | nil =>
      simp only [bumpKey, lookupV_cons, lookupV_nil]
      by_cases h : k = k' <;> simp [h]
  | cons hd t ih =>
      obtain ⟨a, v⟩ := hd
      rw [List.pairwise_cons] at hp
      obtain ⟨ha, ht⟩ := hp
      have htz : ∀ k0 : ℤ, k0 ≤ a → lookupV t k0 = 0 := by
        intro k0 hk0
        apply lookupV_eq_zero
        intro p hp'
        have := ha p hp'
        simp only [keylt] at this
        omega
      simp only [bumpKey]
      by_cases h1 : k < a
      · rw [if_pos h1]
        simp only [lookupV_cons]
        by_cases h2 : k = k'
        · subst h2
          rw [if_pos rfl, if_neg (by omega), if_pos rfl, htz k (by omega)]
        · rw [if_neg h2, if_neg h2, add_zero]
      · by_cases h2 : k = a
        · subst h2
          rw [if_neg h1, if_pos rfl]
          simp only [lookupV_cons]
          by_cases h3 : k = k'
          · rw [if_pos (by simpa using h3), if_pos (by simpa using h3), if_pos h3]
          · rw [if_neg (by simpa using h3), if_neg (by simpa using h3), if_neg h3, add_zero]
        · rw [if_neg h1, if_neg h2]
          simp only [lookupV_cons]
          by_cases h3 : a = k'
          · rw [if_pos (by simpa using h3), if_pos (by simpa using h3), if_neg (by omega), add_zero]
          · rw [if_neg (by simpa using h3), if_neg (by simpa using h3)]
            exact ih ht

lemma lookupV_of_mem {l : List (ℤ × ℕ)} (hp : l.Pairwise keylt) {p : ℤ × ℕ} (h : p ∈ l) :
    lookupV l p.1 = p.2 := by
  induction l with
  | nil => simp at h
  | cons a t ih =>
      rw [List.pairwise_cons] at hp
      obtain ⟨ha, ht⟩ := hp
      rcases List.mem_cons.1 h with h | h
      · subst h; rw [lookupV_cons, if_pos rfl]
      · rw [lookupV_cons, if_neg ?_]
        · exact ih ht h
        · have := ha p h
          simp only [keylt] at this
          omega

lemma lookupV_mem {l : List (ℤ × ℕ)} {k : ℤ} (h : lookupV l k ≠ 0) :
    (k, lookupV l k) ∈ l := by
  unfold lookupV at *
  rcases hf : l.find? (fun p => decide (p.1 = k)) with _ | q
  · rw [hf] at h; simp at h
  · rw [hf] at h ⊢
    have h1 := List.find?_some hf
    have h2 := List.mem_of_find?_eq_some hf
    simp at h1
    simpa [← h1] using h2

lemma foldl_max_spec (t : List (ℤ × ℕ)) : ∀ h : ℤ × ℕ,
    (∀ q ∈ t, h.1 < q.1) → t.Pairwise keylt →
    ((t.foldl (fun best c => if best.2 < c.2 then c else best) h = h ∨
      t.foldl (fun best c => if best.2 < c.2 then c else best) h ∈ t) ∧
     h.2 ≤ (t.foldl (fun best c => if best.2 < c.2 then c else best) h).2 ∧
     (∀ q ∈ t, q.2 ≤ (t.foldl (fun best c => if best.2 < c.2 then c else best) h).2) ∧
     (t.foldl (fun best c => if best.2 < c.2 then c else best) h ≠ h →
       h.2 < (t.foldl (fun best c => if best.2 < c.2 then c else best) h).2) ∧
     (∀ q ∈ t, q.2 = (t.foldl (fun best c => if best.2 < c.2 then c else best) h).2 →
       (t.foldl (fun best c => if best.2 < c.2 then c else best) h).1 ≤ q.1)) := by
  induction t with
  | nil =>
      intro h _ _
      refine ⟨Or.inl rfl, le_refl _, by simp, fun hne => absurd rfl hne, by simp⟩
  | cons c t' ih =>
      intro h hks hp
      rw [List.pairwise_cons] at hp
      obtain ⟨hc, ht'⟩ := hp
      simp only [List.foldl_cons]
      by_cases hlt : h.2 < c.2
      · rw [if_pos hlt]
        obtain ⟨m1, m2, m3, m4, m5⟩ := ih c (fun q hq => hc q hq) ht'
        refine ⟨?_, by omega, ?_, fun _ => by omega, ?_⟩
        · rcases m1 with h' | h'
          · right; simp [h']
          · right; simp [h']
        · intro q hq
          rcases List.mem_cons.1 hq with h' | h'
          · subst h'; exact m2
          · exact m3 q h'
        · intro q hq hq2
          rcases List.mem_cons.1 hq with h' | h'
          · subst h'
            by_cases hrc : t'.foldl (fun best c => if best.2 < c.2 then c else best) q = q
            · rw [hrc]
            · have h5 := m4 hrc
              omega
          · exact m5 q h' hq2
      · rw [if_neg hlt]
        obtain ⟨m1, m2, m3, m4, m5⟩ := ih h
          (fun q hq => lt_trans (hks c (by simp)) (hc q hq)) ht'
        refine ⟨?_, m2, ?_, m4, ?_⟩
        · rcases m1 with h' | h'
          · exact Or.inl h'
          · right; simp [h']
        · intro q hq
          rcases List.mem_cons.1 hq with h' | h'
          · subst h'; omega
          · exact m3 q h'
        · intro q hq hq2
          rcases List.mem_cons.1 hq with h' | h'
          · subst h'
            by_cases hrh : t'.foldl (fun best c => if best.2 < c.2 then c else best) h = h
            · rw [hrh]
              have := hks q (by simp)
              omega
            · have h5 := m4 hrh
              omega
          · exact m5 q h' hq2

lemma get_max_sorted {l : List (ℤ × ℕ)} (hp : l.Pairwise keylt) {p : ℤ × ℕ}
    (h : get_max l = some p) :
    p ∈ l ∧ (∀ q ∈ l, q.2 ≤ p.2) ∧ (∀ q ∈ l, q.2 = p.2 → p.1 ≤ q.1) := by
  match l with
  | [] => simp [get_max] at h
  | hd :: t =>
      simp only [get_max, Option.some.injEq] at h
      rw [List.pairwise_cons] at hp
      obtain ⟨ha, ht⟩ := hp
      obtain ⟨m1, m2, m3, m4, m5⟩ := foldl_max_spec t hd (fun q hq => ha q hq) ht
      rw [h] at m1 m2 m3 m4 m5
      refine ⟨?_, ?_, ?_⟩
      · rcases m1 with h' | h'
        · simp [← h']
        · simp [h']
      · intro q hq
        rcases List.mem_cons.1 hq with h' | h'
        · subst h'; exact m2
        · exact m3 q h'
      · intro q hq hq2
        rcases List.mem_cons.1 hq with h' | h'
        · subst h'
          by_cases hph : p = q
          · simp [hph]
          · have := m4 hph
            omega
        · exact m5 q h' hq2

lemma innerFold_spec (matchList : List DMatch) (pf cf : DataFrame)
    (pb currBox : BoundingBox) :
    ∀ m : List (ℤ × ℕ), m.Pairwise keylt →
    ((matchList.foldl
        (fun m' mt =>
          if containsQ pb.roi (pf.keypoints.getD mt.queryIdx (0, 0)) ∧
             containsQ currBox.roi (cf.keypoints.getD mt.trainIdx (0, 0))
          then bumpKey m' currBox.boxID else m') m).Pairwise keylt ∧
     ∀ k : ℤ, lookupV (matchList.foldl
        (fun m' mt =>
          if containsQ pb.roi (pf.keypoints.getD mt.queryIdx (0, 0)) ∧
             containsQ currBox.roi (cf.keypoints.getD mt.trainIdx (0, 0))
          then bumpKey m' currBox.boxID else m') m) k =
      lookupV m k +
        (if currBox.boxID = k then
          matchList.countP (fun mt =>
            decide (containsQ pb.roi (pf.keypoints.getD mt.queryIdx (0, 0)) ∧
              containsQ currBox.roi (cf.keypoints.getD mt.trainIdx (0, 0)))) else 0)) := by
  induction matchList with
  | nil =>
      intro m hm
      refine ⟨hm, fun k => ?_⟩
      by_cases h : currBox.boxID = k <;> simp [h]
  | cons mt rest ih =>
      intro m hm
      simp only [List.foldl_cons]
      by_cases hacc : containsQ pb.roi (pf.keypoints.getD mt.queryIdx (0, 0)) ∧
          containsQ currBox.roi (cf.keypoints.getD mt.trainIdx (0, 0))
      · rw [if_pos hacc]
        obtain ⟨hs, hl⟩ := ih (bumpKey m currBox.boxID) (bumpKey_pairwise _ hm)
        refine ⟨hs, fun k => ?_⟩
        rw [hl k, lookupV_bumpKey hm]
        rw [List.countP_cons_of_pos _ _ (by simpa using hacc)]
        by_cases h : currBox.boxID = k
        · simp [h]
          try omega
        · simp [h]
      · rw [if_neg hacc]
        obtain ⟨hs, hl⟩ := ih m hm
        refine ⟨hs, fun k => ?_⟩
        rw [hl k, List.countP_cons_of_neg _ _ (by simpa using hacc)]

lemma tallyFold_spec (matchList : List DMatch) (pf cf : DataFrame) (pb : BoundingBox) :
    ∀ (cbs : List BoundingBox) (m : List (ℤ × ℕ)), m.Pairwise keylt →
    ((cbs.foldl
        (fun m currBox =>
          matchList.foldl
            (fun m' mt =>
              if containsQ pb.roi (pf.keypoints.getD mt.queryIdx (0, 0)) ∧
                 containsQ currBox.roi (cf.keypoints.getD mt.trainIdx (0, 0))
              then bumpKey m' currBox.boxID else m') m) m).Pairwise keylt ∧
     ∀ k : ℤ, lookupV (cbs.foldl
        (fun m currBox =>
          matchList.foldl
            (fun m' mt =>
              if containsQ pb.roi (pf.keypoints.getD mt.queryIdx (0, 0)) ∧
                 containsQ currBox.roi (cf.keypoints.getD mt.trainIdx (0, 0))
              then bumpKey m' currBox.boxID else m') m) m) k =
      lookupV m k +
        ((cbs.map (fun currBox =>
          if currBox.boxID = k then
            matchList.countP (fun mt =>
              decide (containsQ pb.roi (pf.keypoints.getD mt.queryIdx (0, 0)) ∧
                containsQ currBox.roi (cf.keypoints.getD mt.trainIdx (0, 0))))
          else 0)).sum)) := by
  intro cbs
  induction cbs with
  | nil => intro m hm; exact ⟨hm, fun k => by simp⟩
  | cons cb rest ih =>
      intro m hm
      simp only [List.foldl_cons, List.map_cons, List.sum_cons]
      obtain ⟨hs1, hl1⟩ := innerFold_spec matchList pf cf pb cb m hm
      obtain ⟨hs2, hl2⟩ := ih _ hs1
      refine ⟨hs2, fun k => ?_⟩
      rw [hl2 k, hl1 k]
      omega

lemma tallyVotes_spec (matchList : List DMatch) (pf cf : DataFrame) (pb : BoundingBox) :
    (tallyVotes matchList pf cf pb).Pairwise keylt ∧
    ∀ k : ℤ, lookupV (tallyVotes matchList pf cf pb) k = voteCount matchList pf cf pb k := by
  obtain ⟨hs, hl⟩ := tallyFold_spec matchList pf cf pb cf.boundingBoxes [] List.Pairwise.nil
  refine ⟨by simpa [tallyVotes] using hs, fun k => ?_⟩
  have h2 := hl k
  rw [lookupV_nil, zero_add] at h2
  simpa [tallyVotes, voteCount] using h2

lemma tallyVotes_pos (matchList : List DMatch) (pf cf : DataFrame) (pb : BoundingBox) :
    ∀ p ∈ tallyVotes matchList pf cf pb, 1 ≤ p.2 := by
  have innerP : ∀ (cb : BoundingBox) (m : List (ℤ × ℕ)), (∀ p ∈ m, 1 ≤ p.2) →
      ∀ p ∈ matchList.foldl
        (fun m' mt =>
          if containsQ pb.roi (pf.keypoints.getD mt.queryIdx (0, 0)) ∧
             containsQ cb.roi (cf.keypoints.getD mt.trainIdx (0, 0))
          then bumpKey m' cb.boxID else m') m, 1 ≤ p.2 := by
    intro cb
    induction matchList with
    | nil => intro m hm; simpa using hm
    | cons mt rest ih =>
        intro m hm
        simp only [List.foldl_cons]
        by_cases hacc : containsQ pb.roi (pf.keypoints.getD mt.queryIdx (0, 0)) ∧
            containsQ cb.roi (cf.keypoints.getD mt.trainIdx (0, 0))
        · rw [if_pos hacc]
          exact ih _ (bumpKey_pos _ hm)
        · rw [if_neg hacc]
          exact ih _ hm
  have outerP : ∀ (cbs : List BoundingBox) (m : List (ℤ × ℕ)), (∀ p ∈ m, 1 ≤ p.2) →
      ∀ p ∈ cbs.foldl
        (fun m currBox =>
          matchList.foldl
            (fun m' mt =>
              if containsQ pb.roi (pf.keypoints.getD mt.queryIdx (0, 0)) ∧
                 containsQ currBox.roi (cf.keypoints.getD mt.trainIdx (0, 0))
              then bumpKey m' currBox.boxID else m') m) m, 1 ≤ p.2 := by
    intro cbs
    induction cbs with
    | nil => intro m hm; simpa using hm
    | cons cb rest ih =>
        intro m hm
        simp only [List.foldl_cons]
        exact ih _ (innerP cb m hm)
  exact outerP cf.boundingBoxes [] (by simp)

/-!  ## Cross-frame association: the claims  -/

/-- A previous frame with a single region (id 7) that receives no votes. -/
def zeroVotePrevFrame : DataFrame :=
  ⟨[⟨7, ⟨0, 0, 10, 10⟩, [], []⟩], []⟩

/-- A current frame with a single region (id 1). -/
def zeroVoteCurrFrame : DataFrame :=
  ⟨[⟨1, ⟨0, 0, 10, 10⟩, [], []⟩], []⟩

/-- C4: with an empty match list the previous region's vote map is empty,
yet `matchBoundingBoxes` still writes an entry for region 7 — the C++
code dereferences `max_element` of the empty map (undefined behavior,
modelled by the absent value) instead of leaving the region unmatched.
The claimed absent entry does not happen: one entry per previous region
is written unconditionally. -/
theorem matchBoundingBoxes_zero_votes_entry :
    matchBoundingBoxes [] zeroVotePrevFrame zeroVoteCurrFrame = [(7, none)] ∧
    tallyVotes [] zeroVotePrevFrame zeroVoteCurrFrame
      (zeroVotePrevFrame.boundingBoxes.getD 0 default) = [] := by
  constructor <;> rfl

/-- Two matches out of one previous keypoint: one votes for current
region 5, the other for current region 3. -/
def tieMatchList : List DMatch := [⟨0, 0⟩, ⟨0, 1⟩]

/-- One previous region (id 0) containing the previous keypoint. -/
def tiePrevFrame : DataFrame :=
  ⟨[⟨0, ⟨0, 0, 10, 10⟩, [], []⟩], [(1, 1)]⟩

/-- Two current regions in iteration order id 5 then id 3, each enclosing
one of the two current keypoints: a one-vote tie. -/
def tieCurrFrame : DataFrame :=
  ⟨[⟨5, ⟨0, 0, 10, 10⟩, [], []⟩, ⟨3, ⟨20, 0, 10, 10⟩, [], []⟩], [(1, 1), (21, 1)]⟩


/-- C5, counterexample: on a one-vote tie between current regions 5 and 3,
with region 5 encountered first during tallying, the code maps the
previous region to 3 (the smallest box id, because the `std::map` vote
tally is ordered by key and `std::max_element` keeps the first maximal
entry), while the claimed first-encountered tie-break demands 5. -/
theorem matchBoundingBoxes_tiebreak_cex :
    matchBoundingBoxes tieMatchList tiePrevFrame tieCurrFrame = [(0, some 3)] ∧
    claimBestMatch tieMatchList tiePrevFrame tieCurrFrame
      (tiePrevFrame.boundingBoxes.getD 0 default) = some 5 ∧
    voteCount tieMatchList tiePrevFrame tieCurrFrame
      (tiePrevFrame.boundingBoxes.getD 0 default) 5 = 1 ∧
    voteCount tieMatchList tiePrevFrame tieCurrFrame
      (tiePrevFrame.boundingBoxes.getD 0 default) 3 = 1 ∧
    (some (3 : ℤ)) ≠ some 5 := by
  refine ⟨?_, ?_, ?_, ?_, by decide⟩
  · norm_num [matchBoundingBoxes, tallyVotes, tieMatchList, tiePrevFrame, tieCurrFrame,
      containsQ, bumpKey, get_max]
  · norm_num [claimBestMatch, tieMatchList, tiePrevFrame, tieCurrFrame, containsQ,
      List.countP, List.countP.go, List.find?]
  · norm_num [voteCount, tieMatchList, tiePrevFrame, tieCurrFrame, containsQ,
      List.countP, List.countP.go]
  · norm_num [voteCount, tieMatchList, tiePrevFrame, tieCurrFrame, containsQ,
      List.countP, List.countP.go]

/-- C5 (amended): every previous region whose vote map is nonempty is
mapped to the current region id with the highest vote count, ties broken
by the smallest current region id (the `std::map` tally is ordered by
box id and `std::max_element` returns its first maximal entry) — not by
the order in which current regions are encountered during tallying. -/
theorem matchBoundingBoxes_best_smallest_id (matchList : List DMatch)
    (prevFrame currFrame : DataFrame) (idx : ℕ)
    (h : idx < prevFrame.boundingBoxes.length)
    (hne : tallyVotes matchList prevFrame currFrame
      (prevFrame.boundingBoxes.getD idx default) ≠ []) :
    ∃ (k : ℤ) (v : ℕ),
      (matchBoundingBoxes matchList prevFrame currFrame).getD idx (0, none) =
        ((prevFrame.boundingBoxes.getD idx default).boxID, some k) ∧
      voteCount matchList prevFrame currFrame
        (prevFrame.boundingBoxes.getD idx default) k = v ∧
      0 < v ∧
      (∀ k' : ℤ, voteCount matchList prevFrame currFrame
        (prevFrame.boundingBoxes.getD idx default) k' ≤ v) ∧
      (∀ k' : ℤ, voteCount matchList prevFrame currFrame
        (prevFrame.boundingBoxes.getD idx default) k' = v → k ≤ k') := by
  set pb := prevFrame.boundingBoxes.getD idx default with hpb
  set t := tallyVotes matchList prevFrame currFrame pb with hT
  obtain ⟨hsort, hlook⟩ := tallyVotes_spec matchList prevFrame currFrame pb
  have hpos := tallyVotes_pos matchList prevFrame currFrame pb
  obtain ⟨p, hp⟩ : ∃ p, get_max t = some p := by
    rcases hE : t with _ | ⟨hd, tl⟩
    · exact absurd hE hne
    · exact ⟨_, rfl⟩
  obtain ⟨hmem, hmax, htie⟩ := get_max_sorted hsort hp
  refine ⟨p.1, p.2, ?_, ?_, ?_, ?_, ?_⟩
  · have hmap : (matchBoundingBoxes matchList prevFrame currFrame).getD idx (0, none) =
        (pb.boxID, (get_max t).map Prod.fst) := by
      unfold matchBoundingBoxes
      rw [List.getD_eq_getElem?_getD, List.getElem?_map]
      rcases hge : prevFrame.boundingBoxes[idx]? with _ | b
      · rw [List.getElem?_eq_none_iff] at hge
        omega
      · have hpb2 : pb = b := by
          rw [hpb, List.getD_eq_getElem?_getD, hge]
          rfl
        rw [hT, hpb2]
        rfl
    rw [hmap, hp]
    rfl
  · rw [← hlook p.1]
    exact lookupV_of_mem hsort hmem
  · exact lt_of_lt_of_le Nat.zero_lt_one (hpos p hmem)
  · intro k'
    rw [← hlook k']
    by_cases hz : lookupV t k' = 0
    · rw [hz]; exact Nat.zero_le _
    · exact hmax _ (lookupV_mem hz)
  · intro k' hk'
    rw [← hlook k'] at hk'
    have hz : lookupV t k' ≠ 0 := by
      rw [hk']
      have := hpos p hmem
      omega
    have := lookupV_mem hz
    rw [hk'] at this
    exact htie _ this rfl

/-- Witness: the amended tie-break rule applied at the concrete tie input. -/
theorem matchBoundingBoxes_best_smallest_id_witness :
    ∃ (k : ℤ) (v : ℕ),
      (matchBoundingBoxes tieMatchList tiePrevFrame tieCurrFrame).getD 0 (0, none) =
        ((tiePrevFrame.boundingBoxes.getD 0 default).boxID, some k) ∧
      voteCount tieMatchList tiePrevFrame tieCurrFrame
        (tiePrevFrame.boundingBoxes.getD 0 default) k = v ∧
      0 < v ∧
      (∀ k' : ℤ, voteCount tieMatchList tiePrevFrame tieCurrFrame
        (tiePrevFrame.boundingBoxes.getD 0 default) k' ≤ v) ∧
      (∀ k' : ℤ, voteCount tieMatchList tiePrevFrame tieCurrFrame
        (tiePrevFrame.boundingBoxes.getD 0 default) k' = v → k ≤ k') :=
  matchBoundingBoxes_best_smallest_id tieMatchList tiePrevFrame tieCurrFrame 0
    (by norm_num [tiePrevFrame])
    (by
      norm_num [tallyVotes, tieMatchList, tiePrevFrame, tieCurrFrame, containsQ, bumpKey]
      decide)

/-!  ## The vision TTC median (C2)  -/

/-- C2: the vision TTC stage returns the undefined value exactly on an
empty accepted-ratio list; any returned value equals
`-dT / (1 - medianRatio)` for the median (central value or average of
the two central values) of a sorted permutation of the accepted
ratios. -/
theorem ttcCameraFromRatios_median_spec (l : List ℝ) (fr : ℝ) :
    (ttcCameraFromRatios l fr = none ↔ l = []) ∧
    (∀ t : ℝ, ttcCameraFromRatios l fr = some t →
      ∃ s : List ℝ, s.Perm l ∧ s.Sorted (fun a b => a ≤ b) ∧
        t = -(1 / fr) / (1 - centralMedian s)) := by
  constructor
  · unfold ttcCameraFromRatios
    by_cases h : l = [] <;> simp [h]
  · intro t ht
    unfold ttcCameraFromRatios at ht
    by_cases h : l = []
    · simp [h] at ht
    · rw [if_neg h] at ht
      refine ⟨l.insertionSort (fun a b => a ≤ b), List.perm_insertionSort _ l,
        List.sorted_insertionSort _ l, ?_⟩
      simp only [Option.some.injEq] at ht
      rw [← ht]
      unfold centralMedian
      have hlen : (l.insertionSort (fun a b => a ≤ b)).length = l.length :=
        (List.perm_insertionSort _ l).length_eq
      rw [hlen]

/-- Evaluation of the spec's own example: accepted ratios
`[0.9, 0.95, 1.0, 1.05]` at frame rate 10 give TTC `-4.0`, the negative
sign preserved. -/
theorem ttcCamera_ratio_example :
    ttcCameraFromRatios [9/10, 19/20, 1, 21/20] 10 = some (-4) := by
  norm_num [ttcCameraFromRatios, List.insertionSort, List.orderedInsert, centralMedian]
  intro hc
  simp at hc

/-- Witness: the median theorem applied at the spec's example list. -/
theorem ttcCameraFromRatios_median_spec_witness :
    ttcCameraFromRatios [9/10, 19/20, 1, 21/20] (10 : ℝ) ≠ none ∧
    (∃ s : List ℝ, s.Perm [9/10, 19/20, 1, 21/20] ∧ s.Sorted (fun a b => a ≤ b) ∧
      (-4 : ℝ) = -(1 / 10) / (1 - centralMedian s)) := by
  constructor
  · intro hnone
    rw [ttcCamera_ratio_example] at hnone
    exact Option.noConfusion hnone
  · exact (ttcCameraFromRatios_median_spec [9/10, 19/20, 1, 21/20] 10).2 (-4)
      ttcCamera_ratio_example

/-!  ## The match-to-region filter (C10)  -/

lemma pfilter_nil {α : Type} (p : α → Prop) : pfilter p [] = [] := rfl

lemma pfilter_cons {α : Type} (p : α → Prop) (a : α) (t : List α) :
    pfilter p (a :: t) = if p a then a :: pfilter p t else pfilter p t := by
  unfold pfilter
  rw [List.filter_cons]
  by_cases h : p a <;> simp [h]

lemma mem_pfilter {α : Type} (p : α → Prop) (l : List α) (x : α) :
    x ∈ pfilter p l ↔ x ∈ l ∧ p x := by
  unfold pfilter
  rw [List.mem_filter]
  simp

lemma pfilter_congr {α : Type} {p q : α → Prop} {l : List α}
    (h : ∀ x ∈ l, p x ↔ q x) : pfilter p l = pfilter q l := by
  unfold pfilter
  refine List.filter_congr ?_
  intro x hx
  have := h x hx
  simp [this]

lemma erasePass_eq_filter {α : Type} (bad : α → Prop) :
    ∀ (l : List α) (i : ℕ),
      erasePass bad l i = l.take i ++ pfilter (fun x => ¬ bad x) (l.drop i) := by
  intro l i
  induction l, i using erasePass.induct bad with
  | case1 l i h hbad ih =>
      rw [erasePass, dif_pos h, if_pos hbad, ih]
      rw [List.eraseIdx_eq_take_drop_succ]
      have h1 : List.take i (List.take i l ++ List.drop (i + 1) l) = List.take i l := by
        rw [List.take_append_eq_append_take]
        simp [List.length_take, Nat.le_of_lt h]
      have h2 : List.drop i (List.take i l ++ List.drop (i + 1) l) = List.drop (i + 1) l := by
        rw [List.drop_append_eq_append_drop]
        simp [List.length_take, Nat.le_of_lt h]
      rw [h1, h2]
      have h3 : List.drop i l = l.get ⟨i, h⟩ :: List.drop (i + 1) l := by
        rw [List.drop_eq_getElem_cons h]
        rfl
      rw [h3, pfilter_cons, if_neg (by simpa using hbad)]
  | case2 l i h hbad ih =>
      rw [erasePass, dif_pos h, if_neg hbad, ih]
      have h3 : List.drop i l = l.get ⟨i, h⟩ :: List.drop (i + 1) l := by
        rw [List.drop_eq_getElem_cons h]
        rfl
      rw [h3, pfilter_cons, if_pos (by simpa using hbad)]
      have h4 : List.take (i + 1) l = List.take i l ++ [l.get ⟨i, h⟩] := by
        rw [List.take_succ]
        congr 1
        rw [List.getElem?_eq_getElem h]
        rfl
      rw [h4, List.append_assoc]
      rfl
  | case3 l i h =>
      rw [erasePass, dif_neg h]
      rw [List.take_of_length_le (by omega), List.drop_eq_nil_of_le (by omega), pfilter_nil,
        List.append_nil]

/-- The initially assigned correspondences of a region: those whose
current-frame keypoint falls inside the (unshrunk) rectangle. -/
def roiMatches (roi : RectZ) (kptsCurr : List (ℚ × ℚ)) (kptMatches : List DMatch) :
    List DMatch :=
  kptMatches.filter (fun m => decide (containsQ roi (kptsCurr.getD m.trainIdx (0, 0))))

/-- Mean pixel displacement over a list of correspondences. -/
noncomputable def meanDisp (kptsPrev kptsCurr : List (ℚ × ℚ)) (l : List DMatch) : ℝ :=
  ((l.map (dispOf kptsPrev kptsCurr)).sum) / (l.length : ℝ)

/-- C10: starting from empty owned collections, a correspondence ends up
in the region's `kptMatches` exactly when its current keypoint lies
inside the region's unshrunk rectangle and its displacement is strictly
below 1.5 times the mean displacement of the initially assigned
correspondences; the erase loop removes precisely the at-least-threshold
matches and skips no retained one (it equals a filter). -/
theorem clusterKptMatchesWithROI_spec (roi : RectZ) (bid : ℤ)
    (kptsPrev kptsCurr : List (ℚ × ℚ)) (kptMatches : List DMatch) :
    (clusterKptMatchesWithROI ⟨bid, roi, [], []⟩ kptsPrev kptsCurr kptMatches).kptMatches =
      pfilter (fun m => dispOf kptsPrev kptsCurr m <
        meanDisp kptsPrev kptsCurr (roiMatches roi kptsCurr kptMatches) * (3 / 2))
        (roiMatches roi kptsCurr kptMatches) ∧
    (∀ m : DMatch,
      m ∈ (clusterKptMatchesWithROI ⟨bid, roi, [], []⟩ kptsPrev kptsCurr kptMatches).kptMatches ↔
        (m ∈ kptMatches ∧ containsQ roi (kptsCurr.getD m.trainIdx (0, 0)) ∧
          dispOf kptsPrev kptsCurr m <
            meanDisp kptsPrev kptsCurr (roiMatches roi kptsCurr kptMatches) * (3 / 2))) := by
  have hmain : (clusterKptMatchesWithROI ⟨bid, roi, [], []⟩ kptsPrev kptsCurr kptMatches).kptMatches =
      erasePass (fun m => meanDisp kptsPrev kptsCurr (roiMatches roi kptsCurr kptMatches) * (3 / 2) ≤
        dispOf kptsPrev kptsCurr m) (roiMatches roi kptsCurr kptMatches) 0 := rfl
  have heq : (clusterKptMatchesWithROI ⟨bid, roi, [], []⟩ kptsPrev kptsCurr kptMatches).kptMatches =
      pfilter (fun m => dispOf kptsPrev kptsCurr m <
        meanDisp kptsPrev kptsCurr (roiMatches roi kptsCurr kptMatches) * (3 / 2))
        (roiMatches roi kptsCurr kptMatches) := by
    rw [hmain, erasePass_eq_filter]
    simp only [List.take_zero, List.drop_zero, List.nil_append]
    refine pfilter_congr ?_
    intro m _
    exact not_le
  refine ⟨heq, fun m => ?_⟩
  rw [heq, mem_pfilter]
  unfold roiMatches
  rw [List.mem_filter]
  simp only [decide_eq_true_eq]
  tauto

/-!  ## The projection divide (C9)  -/

/-- C9: the pixel coordinates divide the first two components of the
projected homogeneous vector `P * R * RT * X` by its true third (depth)
homogeneous component: the `Y.at(0, 2)` access on the 3x1 matrix
row-major-flattens to element 2. -/
theorem projectLidar_divides_by_depth (P : Matrix (Fin 3) (Fin 4) ℚ)
    (R RT : Matrix (Fin 4) (Fin 4) ℚ) (p : LidarPoint) :
    projectLidar P R RT p =
      (truncQ ((P.mulVec (R.mulVec (RT.mulVec (homog p)))) 0 /
               (P.mulVec (R.mulVec (RT.mulVec (homog p)))) 2),
       truncQ ((P.mulVec (R.mulVec (RT.mulVec (homog p)))) 1 /
               (P.mulVec (R.mulVec (RT.mulVec (homog p)))) 2)) := by
  unfold projectLidar matAt31
  norm_num [Matrix.mulVec_mulVec]
  rw [Matrix.mul_assoc]
  exact ⟨rfl, rfl⟩

/-!  ## Point-to-region assignment (C8)  -/

lemma nodup_eq_singleton {α : Type} {l : List α} {k : α} (hnd : l.Nodup)
    (hmem : ∀ x, x ∈ l ↔ x = k) : l = [k] := by
  match l with
  | [] => exact absurd ((hmem k).2 rfl) (by simp)
  | [a] => rw [(hmem a).1 (by simp)]
  | a :: b :: t =>
      have ha : a = k := (hmem a).1 (by simp)
      have hb : b = k := (hmem b).1 (by simp)
      rw [List.nodup_cons] at hnd
      exact absurd (by simp [ha, hb] : a ∈ b :: t) hnd.1

lemma filter_range_singleton {n : ℕ} {p : ℕ → Bool} {k : ℕ} :
    (List.range n).filter p = [k] ↔
      (k < n ∧ p k = true ∧ ∀ j, j < n → j ≠ k → p j = false) := by
  constructor
  · intro h
    have hk : k ∈ (List.range n).filter p := by rw [h]; simp
    rw [List.mem_filter, List.mem_range] at hk
    refine ⟨hk.1, hk.2, fun j hj hjk => ?_⟩
    by_contra hpj
    have : j ∈ (List.range n).filter p := by
      rw [List.mem_filter, List.mem_range]
      exact ⟨hj, by simpa using hpj⟩
    rw [h] at this
    simp at this
    exact hjk this
  · rintro ⟨hk, hpk, hother⟩
    refine nodup_eq_singleton (List.Nodup.filter _ (List.nodup_range n)) ?_
    intro x
    rw [List.mem_filter, List.mem_range]
    constructor
    · rintro ⟨hx, hpx⟩
      by_contra hxk
      rw [hother x hx hxk] at hpx
      exact Bool.noConfusion hpx
    · rintro rfl
      exact ⟨hk, hpk⟩

lemma enclosingIdx_singleton (bs : List BoundingBox) (sf : ℚ) (pix : ℤ × ℤ) (k : ℕ) :
    enclosingIdx bs sf pix = [k] ↔
      (k < bs.length ∧ containsZ (shrinkRect (bs.getD k default).roi sf) pix ∧
        ∀ j, j < bs.length → j ≠ k →
          ¬ containsZ (shrinkRect (bs.getD j default).roi sf) pix) := by
  unfold enclosingIdx
  rw [filter_range_singleton]
  simp only [decide_eq_true_eq, decide_eq_false_iff_not]

lemma assignPoint_length (P : Matrix (Fin 3) (Fin 4) ℚ) (R RT : Matrix (Fin 4) (Fin 4) ℚ)
    (sf : ℚ) (bs : List BoundingBox) (p : LidarPoint) :
    (assignPoint P R RT sf bs p).length = bs.length := by
  unfold assignPoint
  rcases hE : enclosingIdx bs sf (projectLidar P R RT p) with _ | ⟨k, t⟩
  · rfl
  · rcases t with _ | ⟨k2, t2⟩
    · simp
    · rfl

lemma assignPoint_roi (P : Matrix (Fin 3) (Fin 4) ℚ) (R RT : Matrix (Fin 4) (Fin 4) ℚ)
    (sf : ℚ) (bs : List BoundingBox) (p : LidarPoint) (j : ℕ) :
    ((assignPoint P R RT sf bs p).getD j default).roi = (bs.getD j default).roi := by
  unfold assignPoint
  rcases hE : enclosingIdx bs sf (projectLidar P R RT p) with _ | ⟨k, t⟩
  · rfl
  · rcases t with _ | ⟨k2, t2⟩
    · simp only [List.getD_eq_getElem?_getD, List.getElem?_set]
      by_cases hkj : k = j
      · subst hkj
        by_cases hk : k < bs.length
        · rw [if_pos rfl, if_pos hk]
          simp only [Option.getD_some]
          try rw [List.getElem?_eq_getElem hk]
          try rfl
        · rw [if_pos rfl, if_neg hk, List.getElem?_eq_none_iff.2 (by omega)]
      · rw [if_neg hkj]
    · rfl

lemma enclosingIdx_congr {bs bs' : List BoundingBox} (sf : ℚ) (pix : ℤ × ℤ)
    (hlen : bs'.length = bs.length)
    (hroi : ∀ j, ((bs'.getD j default).roi) = (bs.getD j default).roi) :
    enclosingIdx bs' sf pix = enclosingIdx bs sf pix := by
  unfold enclosingIdx
  rw [hlen]
  refine List.filter_congr ?_
  intro k _
  rw [hroi k]

lemma assignPoint_lidar (P : Matrix (Fin 3) (Fin 4) ℚ) (R RT : Matrix (Fin 4) (Fin 4) ℚ)
    (sf : ℚ) (bs : List BoundingBox) (p : LidarPoint) (k : ℕ) (hk : k < bs.length) :
    ((assignPoint P R RT sf bs p).getD k default).lidarPoints =
      (bs.getD k default).lidarPoints ++
        (if enclosingIdx bs sf (projectLidar P R RT p) = [k] then [p] else []) := by
  unfold assignPoint
  rcases hE : enclosingIdx bs sf (projectLidar P R RT p) with _ | ⟨k1, t⟩
  · rw [if_neg (by simp), List.append_nil]
  · rcases t with _ | ⟨k2, t2⟩
    · by_cases hkk : k1 = k
      · subst hkk
        rw [if_pos rfl]
        simp only [List.getD_eq_getElem?_getD, List.getElem?_set, if_pos rfl, if_pos hk]
        try simp only [Option.getD_some]
        try rw [List.getElem?_eq_getElem hk]
        try rfl
      · rw [if_neg (by simpa using hkk), List.append_nil]
        simp only [List.getD_eq_getElem?_getD, List.getElem?_set, if_neg hkk]
    · rw [if_neg (by simp), List.append_nil]

lemma clusterLidar_fold (P : Matrix (Fin 3) (Fin 4) ℚ) (R RT : Matrix (Fin 4) (Fin 4) ℚ)
    (sf : ℚ) :
    ∀ (pts : List LidarPoint) (bs : List BoundingBox) (k : ℕ), k < bs.length →
      ((pts.foldl (assignPoint P R RT sf) bs).getD k default).lidarPoints =
        (bs.getD k default).lidarPoints ++
          pts.filter (fun q => decide (enclosingIdx bs sf (projectLidar P R RT q) = [k])) := by
  intro pts
  induction pts with
  | nil => intro bs k hk; simp
  | cons p rest ih =>
      intro bs k hk
      simp only [List.foldl_cons]
      rw [ih (assignPoint P R RT sf bs p) k (by rw [assignPoint_length]; exact hk)]
      rw [assignPoint_lidar P R RT sf bs p k hk]
      have hcongr : ∀ q : LidarPoint,
          enclosingIdx (assignPoint P R RT sf bs p) sf (projectLidar P R RT q) =
            enclosingIdx bs sf (projectLidar P R RT q) := by
        intro q
        exact enclosingIdx_congr sf _ (assignPoint_length P R RT sf bs p)
          (fun j => assignPoint_roi P R RT sf bs p j)
      have hfil : rest.filter (fun q =>
            decide (enclosingIdx (assignPoint P R RT sf bs p) sf (projectLidar P R RT q) = [k])) =
          rest.filter (fun q => decide (enclosingIdx bs sf (projectLidar P R RT q) = [k])) := by
        refine List.filter_congr ?_
        intro q _
        rw [hcongr q]
      rw [hfil, List.filter_cons, List.append_assoc]
      by_cases hq : enclosingIdx bs sf (projectLidar P R RT p) = [k]
      · rw [if_pos hq, if_pos (by simpa using hq)]
        rfl
      · rw [if_neg hq, if_neg (by simpa using hq)]
        rfl

/-- C8: a lidar point is appended to a region's `lidarPoints` exactly
when its projected pixel lies inside exactly one region's shrunk
rectangle, and to that region; a point enclosed by zero or several
shrunk rectangles is assigned to no region. -/
theorem clusterLidarWithROI_unique_enclosure (bs : List BoundingBox)
    (lidarPoints : List LidarPoint) (shrinkFactor : ℚ) (P : Matrix (Fin 3) (Fin 4) ℚ)
    (R RT : Matrix (Fin 4) (Fin 4) ℚ) :
    (∀ k, k < bs.length →
      ((clusterLidarWithROI bs lidarPoints shrinkFactor P R RT).getD k default).lidarPoints =
        (bs.getD k default).lidarPoints ++
          lidarPoints.filter (fun q =>
            decide (enclosingIdx bs shrinkFactor (projectLidar P R RT q) = [k]))) ∧
    (∀ pix : ℤ × ℤ, ∀ k : ℕ, enclosingIdx bs shrinkFactor pix = [k] ↔
      (k < bs.length ∧ containsZ (shrinkRect (bs.getD k default).roi shrinkFactor) pix ∧
        ∀ j, j < bs.length → j ≠ k →
          ¬ containsZ (shrinkRect (bs.getD j default).roi shrinkFactor) pix)) :=
  ⟨fun k hk => clusterLidar_fold P R RT shrinkFactor lidarPoints bs k hk,
   fun pix k => enclosingIdx_singleton bs shrinkFactor pix k⟩

/-- One box at the origin, identity-like calibration, one point
projecting to pixel (2, 3) inside the box. -/
def roiDemoBoxes : List BoundingBox := [⟨0, ⟨0, 0, 10, 10⟩, [], []⟩]

/-- The single demo lidar point. -/
def roiDemoPoints : List LidarPoint := [⟨2, 3, 1, 0⟩]

/-- A projection matrix selecting the first three coordinates. -/
def roiDemoP : Matrix (Fin 3) (Fin 4) ℚ := !![1, 0, 0, 0; 0, 1, 0, 0; 0, 0, 1, 0]

/-- The identity rectification/extrinsic matrix for the demo. -/
def roiDemoR : Matrix (Fin 4) (Fin 4) ℚ := !![1,0,0,0; 0,1,0,0; 0,0,1,0; 0,0,0,1]

/-- Witness: the unique-enclosure theorem applied at the one-box demo,
and the assignment evaluated: the point lands in the box. -/
theorem clusterLidarWithROI_unique_enclosure_witness :
    ((clusterLidarWithROI roiDemoBoxes roiDemoPoints 0 roiDemoP roiDemoR roiDemoR).getD 0
        default).lidarPoints =
      (roiDemoBoxes.getD 0 default).lidarPoints ++
        roiDemoPoints.filter (fun q =>
          decide (enclosingIdx roiDemoBoxes 0 (projectLidar roiDemoP roiDemoR roiDemoR q) = [0])) ∧
    ((clusterLidarWithROI roiDemoBoxes roiDemoPoints 0 roiDemoP roiDemoR roiDemoR).getD 0
        default).lidarPoints = [⟨2, 3, 1, 0⟩] :=
  ⟨(clusterLidarWithROI_unique_enclosure roiDemoBoxes roiDemoPoints 0 roiDemoP roiDemoR
      roiDemoR).1 0 (by norm_num [roiDemoBoxes]),
   by norm_num [clusterLidarWithROI, assignPoint, enclosingIdx, projectLidar, matAt31, homog,
      truncQ, shrinkRect, containsZ, roiDemoBoxes, roiDemoPoints, roiDemoP, roiDemoR,
      Matrix.mulVec, Matrix.dotProduct, Fin.sum_univ_four, Matrix.mul_apply, Fin.sum_univ_three,
      List.filter, List.range]⟩

/-!  ## The clustering partition property (C6)  -/

lemma clusterHelper_spec (pts : List LidarPoint) (tol : ℚ) :
    ∀ (stack : List (List (Fin pts.length))) (cluster : List (Fin pts.length))
      (processed : Finset (Fin pts.length)),
      processed ⊆ (clusterHelper pts tol stack cluster processed).2 ∧
      ∃ d : List (Fin pts.length),
        (clusterHelper pts tol stack cluster processed).1 = cluster ++ d ∧
        d.Nodup ∧
        d.toFinset = (clusterHelper pts tol stack cluster processed).2 \ processed := by
  intro stack cluster processed
  induction stack, cluster, processed using clusterHelper.induct pts tol with
  | case1 c pr =>
      refine ⟨by simp [clusterHelper], [], by simp [clusterHelper], List.nodup_nil, ?_⟩
      simp [clusterHelper]
  | case2 st c pr ih =>
      simpa [clusterHelper] using ih
  | case3 i rest st c pr hmem ih =>
      simpa [clusterHelper, hmem] using ih
  | case4 i rest st c pr hmem ih =>
      simp only [clusterHelper, hmem, if_false]
      obtain ⟨hsub, d', hd1, hd2, hd3⟩ := ih
      have hiR : i ∈ (clusterHelper pts tol
          (kdSearch pts (pts.get i) tol :: rest :: st) (c ++ [i]) (insert i pr)).2 :=
        hsub (Finset.mem_insert_self i pr)
      refine ⟨(Finset.subset_insert i pr).trans hsub, i :: d', ?_, ?_, ?_⟩
      · rw [hd1]
        simp
      · rw [List.nodup_cons]
        refine ⟨fun hmem' => ?_, hd2⟩
        have : i ∈ (clusterHelper pts tol (kdSearch pts (pts.get i) tol :: rest :: st)
            (c ++ [i]) (insert i pr)).2 \ insert i pr := by
          rw [← hd3]
          exact List.mem_toFinset.2 hmem'
        simp at this
      · ext x
        rw [List.toFinset_cons, Finset.mem_insert, List.mem_toFinset]
        constructor
        · rintro (rfl | hx)
          · exact Finset.mem_sdiff.2 ⟨hiR, hmem⟩
          · have := hd3 ▸ List.mem_toFinset.2 hx
            simp at this ⊢
            tauto
        · intro hx
          simp at hx
          by_cases hxi : x = i
          · exact Or.inl hxi
          · right
            rw [← List.mem_toFinset, hd3]
            simp [hx, hxi]

lemma clusterHelper_seed (pts : List LidarPoint) (tol : ℚ) (i : Fin pts.length)
    (pr : Finset (Fin pts.length)) (h : i ∉ pr) :
    i ∈ (clusterHelper pts tol [[i]] [] pr).2 := by
  have h1 : clusterHelper pts tol [[i]] [] pr =
      clusterHelper pts tol (kdSearch pts (pts.get i) tol :: [] :: []) ([] ++ [i])
        (insert i pr) := by
    rw [clusterHelper, if_neg h]
  rw [h1]
  exact (clusterHelper_spec pts tol _ _ _).1 (Finset.mem_insert_self i pr)

lemma countP_eq_one_of_pairwise {α : Type} [DecidableEq α] {cls : List (List α)} {j : α}
    (hpw : List.Pairwise (fun a b => ∀ x ∈ a, x ∉ b) cls)
    (hex : ∃ c ∈ cls, j ∈ c) : cls.countP (fun c => decide (j ∈ c)) = 1 := by
  induction cls with
  | nil => obtain ⟨c, hc, _⟩ := hex; simp at hc
  | cons c t ih =>
      rw [List.pairwise_cons] at hpw
      obtain ⟨hc, ht⟩ := hpw
      by_cases hj : j ∈ c
      · rw [List.countP_cons_of_pos _ _ (by simpa using hj)]
        have hz : t.countP (fun c => decide (j ∈ c)) = 0 := by
          rw [List.countP_eq_zero]
          intro b hb
          simpa using hc b hb j hj
        rw [hz]
      · rw [List.countP_cons_of_neg _ _ (by simpa using hj)]
        refine ih ht ?_
        obtain ⟨c', hc', hj'⟩ := hex
        rcases List.mem_cons.1 hc' with rfl | hmem
        · exact absurd hj' hj
        · exact ⟨c', hmem, hj'⟩

lemma clusterLoop_spec (pts : List LidarPoint) (tol : ℚ) :
    ∀ (i : ℕ) (pr : Finset (Fin pts.length)) (cls : List (List (Fin pts.length))),
      (∀ c ∈ cls, c.Nodup) →
      List.Pairwise (fun a b => ∀ x ∈ a, x ∉ b) cls →
      (∀ j : Fin pts.length, j ∈ pr ↔ ∃ c ∈ cls, j ∈ c) →
      (∀ j : Fin pts.length, (j : ℕ) < i → j ∈ pr) →
      ((∀ c ∈ clusterLoop pts tol i pr cls, c.Nodup) ∧
       List.Pairwise (fun a b => ∀ x ∈ a, x ∉ b) (clusterLoop pts tol i pr cls) ∧
       (∀ j : Fin pts.length, ∃ c ∈ clusterLoop pts tol i pr cls, j ∈ c)) := by
  intro i pr cls
  induction i, pr, cls using clusterLoop.induct pts tol with
  | case1 i pr cls h hmem ih =>
      intro h1 h2 h3 h4
      rw [clusterLoop, dif_pos h, if_pos hmem]
      refine ih h1 h2 h3 (fun j hj => ?_)
      rcases Nat.lt_or_ge (j : ℕ) i with hlt | hge
      · exact h4 j hlt
      · have hji : (j : ℕ) = i := by omega
        have : j = ⟨i, h⟩ := Fin.ext hji
        rw [this]
        exact hmem
  | case2 i pr cls h hmem r ih =>
      intro h1 h2 h3 h4
      rw [clusterLoop, dif_pos h, if_neg hmem]
      obtain ⟨hsub, d, hd1, hd2, hd3⟩ := clusterHelper_spec pts tol [[⟨i, h⟩]] [] pr
      rw [List.nil_append] at hd1
      have hseed : (⟨i, h⟩ : Fin pts.length) ∈
          (clusterHelper pts tol [[⟨i, h⟩]] [] pr).2 := clusterHelper_seed pts tol _ pr hmem
      refine ih ?_ ?_ ?_ ?_
      · intro c hc
        rcases List.mem_append.1 hc with hc | hc
        · exact h1 c hc
        · rw [List.mem_singleton] at hc
          rw [hc, hd1]
          exact hd2
      · rw [List.pairwise_append]
        refine ⟨h2, by simp, ?_⟩
        intro a ha b hb x hxa
        rw [List.mem_singleton] at hb
        rw [hb, hd1]
        intro hxd
        have hxpr : x ∈ pr := (h3 x).2 ⟨a, ha, hxa⟩
        have : x ∈ (clusterHelper pts tol [[⟨i, h⟩]] [] pr).2 \ pr := by
          rw [← hd3]
          exact List.mem_toFinset.2 hxd
        rw [Finset.mem_sdiff] at this
        exact this.2 hxpr
      · intro j
        constructor
        · intro hj
          by_cases hjpr : j ∈ pr
          · obtain ⟨c, hc, hjc⟩ := (h3 j).1 hjpr
            exact ⟨c, List.mem_append_left _ hc, hjc⟩
          · have : j ∈ (clusterHelper pts tol [[⟨i, h⟩]] [] pr).2 \ pr :=
              Finset.mem_sdiff.2 ⟨hj, hjpr⟩
            rw [← hd3] at this
            refine ⟨(clusterHelper pts tol [[⟨i, h⟩]] [] pr).1,
              List.mem_append_right _ (List.mem_singleton.2 rfl), ?_⟩
            rw [hd1]
            exact List.mem_toFinset.1 this
        · rintro ⟨c, hc, hjc⟩
          rcases List.mem_append.1 hc with hc | hc
          · exact hsub ((h3 j).2 ⟨c, hc, hjc⟩)
          · rw [List.mem_singleton] at hc
            rw [hc, hd1] at hjc
            have : j ∈ (clusterHelper pts tol [[⟨i, h⟩]] [] pr).2 \ pr := by
              rw [← hd3]
              exact List.mem_toFinset.2 hjc
            exact (Finset.mem_sdiff.1 this).1
      · intro j hj
        rcases Nat.lt_or_ge (j : ℕ) i with hlt | hge
        · exact hsub (h4 j hlt)
        · have hji : (j : ℕ) = i := by omega
          have : j = ⟨i, h⟩ := Fin.ext hji
          rw [this]
          exact hseed
  | case3 i pr cls h =>
      intro h1 h2 h3 h4
      rw [clusterLoop, dif_neg h]
      refine ⟨h1, h2, fun j => (h3 j).1 (h4 j ?_)⟩
      have := j.isLt
      omega

/-- Every input index lies in some returned cluster (shared consequence
of the loop invariants). -/
lemma euclideanCluster_cover (pts : List LidarPoint) (tol : ℚ) :
    ∀ j : Fin pts.length, ∃ c ∈ euclideanCluster pts tol, j ∈ c :=
  (clusterLoop_spec pts tol 0 ∅ [] (by simp) List.Pairwise.nil (by simp) (by simp)).2.2

/-- C6: the clusters returned by `euclideanCluster` partition the input
index set: each cluster is duplicate-free, clusters are pairwise
disjoint, every input index lies in some cluster, and hence every input
index lies in exactly one returned cluster (isolated points form
singleton clusters rather than being dropped). -/
theorem euclideanCluster_partition (pts : List LidarPoint) (tol : ℚ) :
    (∀ c ∈ euclideanCluster pts tol, c.Nodup) ∧
    List.Pairwise (fun a b => ∀ x ∈ a, x ∉ b) (euclideanCluster pts tol) ∧
    (∀ j : Fin pts.length, ∃ c ∈ euclideanCluster pts tol, j ∈ c) ∧
    (∀ j : Fin pts.length,
      (euclideanCluster pts tol).countP (fun c => decide (j ∈ c)) = 1) := by
  obtain ⟨h1, h2, h3⟩ := clusterLoop_spec pts tol 0 ∅ []
    (by simp) List.Pairwise.nil (by simp) (by simp)
  exact ⟨h1, h2, h3, fun j => countP_eq_one_of_pairwise h2 (h3 j)⟩

/-!  ## Evaluation lemmas for one-point clouds  -/

lemma kdSearch_singleton (p : LidarPoint) (tol : ℚ) :
    kdSearch [p] p tol = [⟨0, by norm_num⟩] := by
  unfold kdSearch
  simp only [List.length_singleton]
  have hfr : List.finRange 1 = [⟨0, by norm_num⟩] := by decide
  rw [hfr, List.filter_cons]
  have h0 : dist2 p p = 0 := by simp [dist2]
  simp [h0, mul_self_nonneg tol]

lemma clusterHelper_singleton (p : LidarPoint) (tol : ℚ) :
    (clusterHelper [p] tol [[⟨0, by norm_num⟩]] [] ∅).1 = [⟨0, by norm_num⟩] := by
  obtain ⟨hsub, d, hd1, hd2, hd3⟩ := clusterHelper_spec [p] tol [[⟨0, by norm_num⟩]] [] ∅
  have hseed := clusterHelper_seed [p] tol ⟨0, by norm_num⟩ ∅ (by simp)
  rw [List.nil_append] at hd1
  rw [hd1]
  refine nodup_eq_singleton hd2 ?_
  intro x
  constructor
  · intro _
    have hx1 : (x : ℕ) < 1 := x.isLt
    exact Fin.ext (show (x : ℕ) = 0 by omega)
  · rintro rfl
    rw [← List.mem_toFinset, hd3]
    simp only [Finset.mem_sdiff, Finset.not_mem_empty, not_false_iff, and_true]
    exact hseed

lemma euclideanCluster_singleton (p : LidarPoint) (tol : ℚ) :
    euclideanCluster [p] tol = [[⟨0, by norm_num⟩]] := by
  unfold euclideanCluster
  simp [clusterLoop]
  exact clusterHelper_singleton p tol

lemma removeLidarOutlier_singleton (p : LidarPoint) (tol : ℚ) :
    removeLidarOutlier [p] tol = [p] := by
  unfold removeLidarOutlier
  rw [euclideanCluster_singleton]
  simp

/-!  ## Largest-cluster selection (C7)  -/

lemma foldl_pick_spec {α : Type} (L : List (List α)) : ∀ acc : List α,
    (L.foldl (fun m c => if m.length < c.length then c else m) acc = acc ∧
      ∀ c ∈ L, c.length ≤ acc.length) ∨
    (∃ i : ℕ, i < L.length ∧
      L.foldl (fun m c => if m.length < c.length then c else m) acc = L.getD i [] ∧
      acc.length < (L.getD i []).length ∧
      (∀ j : ℕ, j < L.length → (L.getD j []).length ≤ (L.getD i []).length) ∧
      (∀ j : ℕ, j < i → (L.getD j []).length < (L.getD i []).length)) := by
  induction L with
  | nil => intro acc; exact Or.inl ⟨rfl, by simp⟩
  | cons c t ih =>
      intro acc
      simp only [List.foldl_cons]
      by_cases hlt : acc.length < c.length
      · rw [if_pos hlt]
        rcases ih c with ⟨hr, hall⟩ | ⟨i', hi', hr, hacc, hmax, hfirst⟩
        · right
          refine ⟨0, by simp, by simpa using hr, by simpa using hlt, ?_, by omega⟩
          intro j hj
          rcases j with _ | j
          · simp
          · simp only [List.getD_cons_succ, List.getD_cons_zero]
            by_cases hjt : j < t.length
            · rw [List.getD_eq_getElem?_getD, List.getElem?_eq_getElem hjt]
              exact hall _ (List.getElem_mem hjt)
            · rw [List.getD_eq_default _ _ (by omega)]
              simp
        · right
          refine ⟨i' + 1, by simpa using hi', by simpa using hr, ?_, ?_, ?_⟩
          · simp only [List.getD_cons_succ]
            omega
          · intro j hj
            rcases j with _ | j
            · simp only [List.getD_cons_succ, List.getD_cons_zero]
              omega
            · simp only [List.getD_cons_succ]
              exact hmax j (by simp only [List.length_cons] at hj; omega)
          · intro j hj
            rcases j with _ | j
            · simp only [List.getD_cons_succ, List.getD_cons_zero]
              omega
            · simp only [List.getD_cons_succ]
              exact hfirst j (by omega)
      · rw [if_neg hlt]
        rcases ih acc with ⟨hr, hall⟩ | ⟨i', hi', hr, hacc, hmax, hfirst⟩
        · left
          refine ⟨hr, ?_⟩
          intro d hd
          rcases List.mem_cons.1 hd with rfl | hd
          · omega
          · exact hall d hd
        · right
          refine ⟨i' + 1, by simpa using hi', by simpa using hr, ?_, ?_, ?_⟩
          · simp only [List.getD_cons_succ]
            omega
          · intro j hj
            rcases j with _ | j
            · simp only [List.getD_cons_succ, List.getD_cons_zero]
              have : c.length ≤ acc.length := by omega
              omega
            · simp only [List.getD_cons_succ]
              exact hmax j (by simp only [List.length_cons] at hj; omega)
          · intro j hj
            rcases j with _ | j
            · simp only [List.getD_cons_succ, List.getD_cons_zero]
              omega
            · simp only [List.getD_cons_succ]
              exact hfirst j (by omega)

lemma euclideanCluster_nil (tol : ℚ) : euclideanCluster [] tol = [] := by
  unfold euclideanCluster
  rw [clusterLoop, dif_neg (by simp)]

/-- C7: `removeLidarOutlier` returns the points of the cluster with the
greatest point count (`foldl_pick_spec`: the first maximal cluster in
clustering order wins ties); the result is a subset of the input with
all payload fields preserved, and an empty input gives an empty
result. -/
theorem removeLidarOutlier_largest_cluster (pts : List LidarPoint) (tol : ℚ) :
    (pts = [] → removeLidarOutlier pts tol = []) ∧
    (∀ p ∈ removeLidarOutlier pts tol, p ∈ pts) ∧
    (pts ≠ [] → ∃ i : ℕ,
      i < ((euclideanCluster pts tol).map (fun c => c.map pts.get)).length ∧
      removeLidarOutlier pts tol =
        ((euclideanCluster pts tol).map (fun c => c.map pts.get)).getD i [] ∧
      (∀ j : ℕ, j < ((euclideanCluster pts tol).map (fun c => c.map pts.get)).length →
        (((euclideanCluster pts tol).map (fun c => c.map pts.get)).getD j []).length ≤
          (((euclideanCluster pts tol).map (fun c => c.map pts.get)).getD i []).length) ∧
      (∀ j : ℕ, j < i →
        (((euclideanCluster pts tol).map (fun c => c.map pts.get)).getD j []).length <
          (((euclideanCluster pts tol).map (fun c => c.map pts.get)).getD i []).length)) := by
  set cls := (euclideanCluster pts tol).map (fun c => c.map pts.get) with hcls
  have hfold : removeLidarOutlier pts tol =
      cls.foldl (fun m c => if m.length < c.length then c else m) [] := by
    unfold removeLidarOutlier
    rw [hcls, List.foldl_map]
  have hsubget : ∀ i : ℕ, i < cls.length → ∀ p ∈ cls.getD i [], p ∈ pts := by
    intro i hi p hp
    rw [hcls, List.getD_eq_getElem?_getD, List.getElem?_map] at hp
    rw [hcls, List.length_map] at hi
    rw [List.getElem?_eq_getElem hi] at hp
    simp only [Option.map_some', Option.getD_some, List.mem_map] at hp
    obtain ⟨idx, _, rfl⟩ := hp
    exact List.get_mem pts idx.1 idx.2
  have hnil : ∀ h0 : pts = [], removeLidarOutlier pts tol = [] := by
    intro h0
    rw [hfold, hcls, h0, euclideanCluster_nil]
    rfl
  rcases foldl_pick_spec cls [] with ⟨hr, hall⟩ | ⟨i, hi, hr, _, hmax, hfirst⟩
  · refine ⟨hnil, ?_, ?_⟩
    · rw [hfold, hr]
      simp
    · intro hne
      exfalso
      have hlen : 0 < pts.length := List.length_pos.2 hne
      obtain ⟨c, hc, hjc⟩ := euclideanCluster_cover pts tol ⟨0, hlen⟩
      have hmapmem : c.map pts.get ∈ cls := by
        rw [hcls]
        exact List.mem_map_of_mem _ hc
      have h1 := hall _ hmapmem
      rw [List.length_map] at h1
      have h2 : 0 < c.length := List.length_pos.2 (by rintro rfl; simp at hjc)
      have h1a : c.length ≤ 0 := by simpa using h1
      omega
  · refine ⟨hnil, ?_, fun _ => ⟨i, hi, hfold.trans hr, hmax, hfirst⟩⟩
    intro p hp
    rw [hfold, hr] at hp
    exact hsubget i hi p hp

/-- Witness: the largest-cluster theorem applied to a two-point cloud
(two isolated points, two singleton clusters, the first one winning the
size tie). -/
theorem removeLidarOutlier_largest_cluster_witness :
    ∃ i : ℕ,
      i < ((euclideanCluster [⟨0, 0, 0, 0⟩, ⟨100, 0, 0, 0⟩] (1 / 10)).map
        (fun c => c.map [(⟨0, 0, 0, 0⟩ : LidarPoint), ⟨100, 0, 0, 0⟩].get)).length ∧
      removeLidarOutlier [⟨0, 0, 0, 0⟩, ⟨100, 0, 0, 0⟩] (1 / 10) =
        ((euclideanCluster [⟨0, 0, 0, 0⟩, ⟨100, 0, 0, 0⟩] (1 / 10)).map
          (fun c => c.map [(⟨0, 0, 0, 0⟩ : LidarPoint), ⟨100, 0, 0, 0⟩].get)).getD i [] ∧
      (∀ j : ℕ, j < ((euclideanCluster [⟨0, 0, 0, 0⟩, ⟨100, 0, 0, 0⟩] (1 / 10)).map
          (fun c => c.map [(⟨0, 0, 0, 0⟩ : LidarPoint), ⟨100, 0, 0, 0⟩].get)).length →
        (((euclideanCluster [⟨0, 0, 0, 0⟩, ⟨100, 0, 0, 0⟩] (1 / 10)).map
          (fun c => c.map [(⟨0, 0, 0, 0⟩ : LidarPoint), ⟨100, 0, 0, 0⟩].get)).getD j []).length ≤
          (((euclideanCluster [⟨0, 0, 0, 0⟩, ⟨100, 0, 0, 0⟩] (1 / 10)).map
            (fun c => c.map [(⟨0, 0, 0, 0⟩ : LidarPoint), ⟨100, 0, 0, 0⟩].get)).getD i []).length) ∧
      (∀ j : ℕ, j < i →
        (((euclideanCluster [⟨0, 0, 0, 0⟩, ⟨100, 0, 0, 0⟩] (1 / 10)).map
          (fun c => c.map [(⟨0, 0, 0, 0⟩ : LidarPoint), ⟨100, 0, 0, 0⟩].get)).getD j []).length <
          (((euclideanCluster [⟨0, 0, 0, 0⟩, ⟨100, 0, 0, 0⟩] (1 / 10)).map
            (fun c => c.map [(⟨0, 0, 0, 0⟩ : LidarPoint), ⟨100, 0, 0, 0⟩].get)).getD i []).length) :=
  (removeLidarOutlier_largest_cluster [⟨0, 0, 0, 0⟩, ⟨100, 0, 0, 0⟩] (1 / 10)).2.2 (by simp)

/-- Witness: the partition theorem applied to a one-point cloud, with its
single cluster evaluated. -/
theorem euclideanCluster_partition_witness :
    ([(⟨0, by norm_num⟩ : Fin [(⟨5, 0, 0, 0⟩ : LidarPoint)].length)]).Nodup ∧
    (∃ c ∈ euclideanCluster [(⟨5, 0, 0, 0⟩ : LidarPoint)] (1 / 10),
      (⟨0, by norm_num⟩ : Fin [(⟨5, 0, 0, 0⟩ : LidarPoint)].length) ∈ c) :=
  ⟨(euclideanCluster_partition [⟨5, 0, 0, 0⟩] (1 / 10)).1 [⟨0, by norm_num⟩]
      (by rw [euclideanCluster_singleton]; simp),
   (euclideanCluster_partition [⟨5, 0, 0, 0⟩] (1 / 10)).2.2.1 ⟨0, by norm_num⟩⟩

/-!  ## The lidar TTC formula (C1)  -/

lemma ite_min (x a : ℚ) : (if x < a then x else a) = min a x := by
  rw [min_def]
  by_cases h : x < a
  · rw [if_pos h, if_neg (by linarith)]
  · rw [if_neg h]
    by_cases h2 : a ≤ x
    · rw [if_pos h2]
    · linarith

lemma foldl_min_shift (xs : List ℚ) : ∀ a b : ℚ,
    xs.foldl min (min a b) = min a (xs.foldl min b) := by
  induction xs with
  | nil => intro a b; rfl
  | cons c t ih =>
      intro a b
      simp only [List.foldl_cons]
      rw [min_assoc, ih]

lemma foldl_min_eval (xs : List ℚ) : ∀ b : ℚ,
    xs.foldl min b = match xs.min? with
      | none => b
      | some m => min b m := by
  induction xs with
  | nil => intro b; rfl
  | cons x t ih =>
      intro b
      simp only [List.foldl_cons]
      rw [foldl_min_shift t b x, ih x]
      rcases h : t.min? with _ | m
      · simp [List.min?_cons, h]
      · simp [List.min?_cons, h, min_assoc]

lemma foldl_lane_to_min (P : LidarPoint → Prop) [DecidablePred P] :
    ∀ (l : List LidarPoint) (a : ℚ),
    l.foldl (fun m p => if P p then (if p.x < m then p.x else m) else m) a =
      ((l.filter (fun p => decide (P p))).map LidarPoint.x).foldl min a := by
  intro l
  induction l with
  | nil => intro a; rfl
  | cons p t ih =>
      intro a
      simp only [List.foldl_cons, List.filter_cons]
      by_cases hP : P p
      · rw [if_pos hP, if_pos (show (decide (P p)) = true by simpa using hP)]
        simp only [List.map_cons, List.foldl_cons]
        rw [ih, ite_min]
      · rw [if_neg hP, if_neg (show ¬ (decide (P p)) = true by simpa using hP)]
        exact ih a

lemma foldl_lane_min (P : LidarPoint → Prop) [DecidablePred P]
    (l : List LidarPoint) (a : ℚ) :
    l.foldl (fun m p => if P p then (if p.x < m then p.x else m) else m) a =
      match ((l.filter (fun p => decide (P p))).map LidarPoint.x).min? with
      | none => a
      | some m => min a m := by
  rw [foldl_lane_to_min, foldl_min_eval]

lemma min_sentinel_claimMinX (l : List LidarPoint) :
    (match ((l.filter (fun p => decide (|p.y| ≤ 4 / 2))).map LidarPoint.x).min? with
      | none => (10 ^ 9 : ℚ)
      | some m => min (10 ^ 9) m) = min (10 ^ 9) (claimMinX l) := by
  unfold claimMinX
  have hfil : l.filter (fun p => decide (|p.y| ≤ 4 / 2)) =
      l.filter (fun p => decide (|p.y| ≤ 2)) := by
    refine List.filter_congr ?_
    intro p _
    refine decide_eq_decide.2 ?_
    norm_num
  rw [hfil]
  rcases h : ((l.filter (fun p => decide (|p.y| ≤ 2))).map LidarPoint.x).min? with _ | m
  · rw [h]
    simp
  · rw [h]
    simp

/-- C1 (amended): `computeTTCLidar` cleans both clouds at tolerance 0.1
and returns `minXCurr * dT / (minXPrev - minXCurr)`, where each minimum
is the minimum of the in-lane forward coordinates TOGETHER with the
sentinel `1e9` (the running minimum starts at the sentinel, so values
above `1e9` are clamped; with no qualifying point the sentinel itself
remains). -/
theorem computeTTCLidar_clamped_formula (lidarPointsPrev lidarPointsCurr : List LidarPoint)
    (frameRate : ℚ) (_hfr : 0 < frameRate) :
    computeTTCLidar lidarPointsPrev lidarPointsCurr frameRate =
      min (10 ^ 9) (claimMinX (removeLidarOutlier lidarPointsCurr (1 / 10))) * (1 / frameRate) /
        (min (10 ^ 9) (claimMinX (removeLidarOutlier lidarPointsPrev (1 / 10))) -
          min (10 ^ 9) (claimMinX (removeLidarOutlier lidarPointsCurr (1 / 10)))) := by
  unfold computeTTCLidar
  dsimp only
  rw [foldl_lane_min (fun p => |p.y| ≤ 4 / 2), foldl_lane_min (fun p => |p.y| ≤ 4 / 2)]
  rw [min_sentinel_claimMinX, min_sentinel_claimMinX]

/-- C1, counterexample: with a cleaned previous point at `x = 3e9` the
code's minimum stays at the `1e9` sentinel rather than being the
claimed minimum `3e9` over qualifying points, so the TTC differs from
the claim's formula. -/
theorem computeTTCLidar_minx_sentinel_cex :
    computeTTCLidar [⟨3 * 10 ^ 9, 0, 0, 0⟩] [⟨8, 0, 0, 0⟩] 10 ≠
      claimTTCLidar [⟨3 * 10 ^ 9, 0, 0, 0⟩] [⟨8, 0, 0, 0⟩] 10 := by
  unfold computeTTCLidar claimTTCLidar
  dsimp only
  rw [removeLidarOutlier_singleton, removeLidarOutlier_singleton]
  norm_num [claimMinX]

/-- Witness: the amended formula applied at the spec's own example
(`minXPrev = 10`, `minXCurr = 8`, `frameRate = 10`), together with the
evaluation `TTC = 0.4`. -/
theorem computeTTCLidar_clamped_formula_witness :
    computeTTCLidar [⟨10, 0, 0, 0⟩] [⟨8, 0, 0, 0⟩] 10 =
      min (10 ^ 9) (claimMinX (removeLidarOutlier [⟨8, 0, 0, 0⟩] (1 / 10))) * (1 / 10) /
        (min (10 ^ 9) (claimMinX (removeLidarOutlier [⟨10, 0, 0, 0⟩] (1 / 10))) -
          min (10 ^ 9) (claimMinX (removeLidarOutlier [⟨8, 0, 0, 0⟩] (1 / 10)))) ∧
    computeTTCLidar [⟨10, 0, 0, 0⟩] [⟨8, 0, 0, 0⟩] 10 = 2 / 5 :=
  ⟨computeTTCLidar_clamped_formula [⟨10, 0, 0, 0⟩] [⟨8, 0, 0, 0⟩] 10 (by norm_num),
   by
    unfold computeTTCLidar
    dsimp only
    rw [removeLidarOutlier_singleton, removeLidarOutlier_singleton]
    norm_num⟩

/-!  ## The ratio-collection loops (C3)  -/

lemma ptDist_self (p : ℚ × ℚ) : ptDist p p = 0 := by
  unfold ptDist
  simp

lemma ptDist_comm (p q : ℚ × ℚ) : ptDist p q = ptDist q p := by
  unfold ptDist
  ring_nf

lemma ptDist_xaxis (a b : ℚ) : ptDist (a, 0) (b, 0) = |(a : ℝ) - (b : ℝ)| := by
  unfold ptDist
  simp [Real.sqrt_sq_eq_abs]

noncomputable def pairRatioM (kptsPrev kptsCurr : List (ℚ × ℚ)) (kptMatches : List DMatch)
    (i j : ℕ) : Multiset ℝ :=
  let distCurr := ptDist (kptsCurr.getD (kptMatches.getD i default).trainIdx (0, 0))
    (kptsCurr.getD (kptMatches.getD j default).trainIdx (0, 0))
  let distPrev := ptDist (kptsPrev.getD (kptMatches.getD i default).queryIdx (0, 0))
    (kptsPrev.getD (kptMatches.getD j default).queryIdx (0, 0))
  if dblEps < distPrev ∧ 100 ≤ distCurr then {distCurr / distPrev} else 0

noncomputable def claimRatios (kptsPrev kptsCurr : List (ℚ × ℚ))
    (kptMatches : List DMatch) : Multiset ℝ :=
  ∑ p ∈ (Finset.range kptMatches.length ×ˢ Finset.range kptMatches.length).filter
      (fun p => p.1 < p.2), pairRatioM kptsPrev kptsCurr kptMatches p.1 p.2

noncomputable def extraRatios (kptsPrev kptsCurr : List (ℚ × ℚ))
    (kptMatches : List DMatch) : Multiset ℝ :=
  ∑ p ∈ (Finset.range kptMatches.length ×ˢ Finset.range kptMatches.length).filter
      (fun p => p.1 < p.2 ∧ 1 ≤ p.1 ∧ p.2 + 1 < kptMatches.length),
    pairRatioM kptsPrev kptsCurr kptMatches p.1 p.2

lemma pairRatioM_self (kp kc : List (ℚ × ℚ)) (ms : List DMatch) (i : ℕ) :
    pairRatioM kp kc ms i i = 0 := by
  unfold pairRatioM
  rw [if_neg]
  rintro ⟨-, h2⟩
  rw [ptDist_self] at h2
  norm_num at h2

lemma pairRatioM_comm (kp kc : List (ℚ × ℚ)) (ms : List DMatch) (i j : ℕ) :
    pairRatioM kp kc ms i j = pairRatioM kp kc ms j i := by
  unfold pairRatioM
  rw [ptDist_comm (kc.getD (ms.getD i default).trainIdx (0, 0)),
    ptDist_comm (kp.getD (ms.getD i default).queryIdx (0, 0))]

lemma ofList_flatMap_range {α : Type} (f : ℕ → List α) (m : ℕ) :
    (Multiset.ofList ((List.range m).flatMap f)) =
      ∑ i ∈ Finset.range m, (Multiset.ofList (f i)) := by
  induction m with
  | zero => rfl
  | succ m ih =>
      rw [List.range_succ, List.flatMap_append, Finset.sum_range_succ, ← ih]
      simp

/-- C3 (amended): the multiset of accepted ratios equals the claim's
multiset over unordered pairs of distinct correspondences PLUS one
extra copy of every accepted pair both of whose members are interior
(neither the first nor the last correspondence): the loops run over the
ordered pairs `(i, j)` with `i` ranging over all but the last match and
`j` over all but the first, so interior pairs are visited in both
orders; pairs with `i = j` are always rejected since their current
distance is `0 < 100`. -/
theorem codeRatios_unordered_plus_interior (kptsPrev kptsCurr : List (ℚ × ℚ))
    (kptMatches : List DMatch) :
    (codeRatios kptsPrev kptsCurr kptMatches : Multiset ℝ) =
      claimRatios kptsPrev kptsCurr kptMatches + extraRatios kptsPrev kptsCurr kptMatches := by
  have hbucket : ∀ i j : ℕ,
      (Multiset.ofList
        (let distCurr := ptDist (kptsCurr.getD (kptMatches.getD i default).trainIdx (0, 0))
          (kptsCurr.getD (kptMatches.getD (j + 1) default).trainIdx (0, 0))
        let distPrev := ptDist (kptsPrev.getD (kptMatches.getD i default).queryIdx (0, 0))
          (kptsPrev.getD (kptMatches.getD (j + 1) default).queryIdx (0, 0))
        if dblEps < distPrev ∧ 100 ≤ distCurr then [distCurr / distPrev] else [])) =
        pairRatioM kptsPrev kptsCurr kptMatches i (j + 1) := by
    intro i j
    unfold pairRatioM
    by_cases h : dblEps < ptDist (kptsPrev.getD (kptMatches.getD i default).queryIdx (0, 0))
        (kptsPrev.getD (kptMatches.getD (j + 1) default).queryIdx (0, 0)) ∧
        100 ≤ ptDist (kptsCurr.getD (kptMatches.getD i default).trainIdx (0, 0))
          (kptsCurr.getD (kptMatches.getD (j + 1) default).trainIdx (0, 0))
    · rw [if_pos h, if_pos h]
      rfl
    · rw [if_neg h, if_neg h]
      rfl
  have h1 : (codeRatios kptsPrev kptsCurr kptMatches : Multiset ℝ) =
      ∑ p ∈ Finset.range (kptMatches.length - 1) ×ˢ Finset.range (kptMatches.length - 1),
        pairRatioM kptsPrev kptsCurr kptMatches p.1 (p.2 + 1) := by
    unfold codeRatios
    rw [ofList_flatMap_range, Finset.sum_product]
    refine Finset.sum_congr rfl ?_
    intro i _
    rw [ofList_flatMap_range]
    refine Finset.sum_congr rfl ?_
    intro j _
    exact hbucket i j
  set n := kptMatches.length with hn
  set S := Finset.range (n - 1) ×ˢ Finset.range (n - 1) with hS
  set F := fun p : ℕ × ℕ => pairRatioM kptsPrev kptsCurr kptMatches p.1 (p.2 + 1) with hF
  have hsplit1 : ∑ p ∈ S, F p =
      ∑ p ∈ S.filter (fun p => p.1 < p.2 + 1), F p +
      ∑ p ∈ S.filter (fun p => ¬ p.1 < p.2 + 1), F p :=
    (Finset.sum_filter_add_sum_filter_not S _ F).symm
  have hsplit2 : ∑ p ∈ S.filter (fun p => ¬ p.1 < p.2 + 1), F p =
      ∑ p ∈ (S.filter (fun p => ¬ p.1 < p.2 + 1)).filter (fun p => p.1 = p.2 + 1), F p +
      ∑ p ∈ (S.filter (fun p => ¬ p.1 < p.2 + 1)).filter (fun p => ¬ p.1 = p.2 + 1), F p :=
    (Finset.sum_filter_add_sum_filter_not _ _ F).symm
  have hdiag : ∑ p ∈ (S.filter (fun p => ¬ p.1 < p.2 + 1)).filter (fun p => p.1 = p.2 + 1),
      F p = 0 := by
    refine Finset.sum_eq_zero ?_
    intro p hp
    rw [Finset.mem_filter] at hp
    rw [hF]
    dsimp only
    rw [hp.2]
    exact pairRatioM_self kptsPrev kptsCurr kptMatches (p.2 + 1)
  have hlt : ∑ p ∈ S.filter (fun p => p.1 < p.2 + 1), F p =
      claimRatios kptsPrev kptsCurr kptMatches := by
    unfold claimRatios
    refine Finset.sum_nbij' (fun p => (p.1, p.2 + 1)) (fun q => (q.1, q.2 - 1)) ?_ ?_ ?_ ?_ ?_
    · intro a ha
      rw [Finset.mem_filter, Finset.mem_product, Finset.mem_range, Finset.mem_range] at ha
      rw [Finset.mem_filter, Finset.mem_product, Finset.mem_range, Finset.mem_range]
      dsimp only
      omega
    · intro a ha
      rw [Finset.mem_filter, Finset.mem_product, Finset.mem_range, Finset.mem_range] at ha
      rw [Finset.mem_filter, Finset.mem_product, Finset.mem_range, Finset.mem_range]
      dsimp only
      omega
    · intro a ha
      rw [Finset.mem_filter] at ha
      have := ha.2
      dsimp only at this ⊢
      rw [Prod.ext_iff]
      dsimp only
      omega
    · intro a ha
      rw [Finset.mem_filter, Finset.mem_product, Finset.mem_range, Finset.mem_range] at ha
      rw [Prod.ext_iff]
      dsimp only
      omega
    · intro a _
      rfl
  have hgt : ∑ p ∈ (S.filter (fun p => ¬ p.1 < p.2 + 1)).filter (fun p => ¬ p.1 = p.2 + 1),
      F p = extraRatios kptsPrev kptsCurr kptMatches := by
    unfold extraRatios
    refine Finset.sum_nbij' (fun p => (p.2 + 1, p.1)) (fun q => (q.2, q.1 - 1)) ?_ ?_ ?_ ?_ ?_
    · intro a ha
      rw [Finset.mem_filter, Finset.mem_filter, Finset.mem_product, Finset.mem_range,
        Finset.mem_range] at ha
      rw [Finset.mem_filter, Finset.mem_product, Finset.mem_range, Finset.mem_range]
      dsimp only
      omega
    · intro a ha
      rw [Finset.mem_filter, Finset.mem_product, Finset.mem_range, Finset.mem_range] at ha
      rw [Finset.mem_filter, Finset.mem_filter, Finset.mem_product, Finset.mem_range,
        Finset.mem_range]
      dsimp only
      omega
    · intro a ha
      rw [Finset.mem_filter, Finset.mem_filter, Finset.mem_product, Finset.mem_range,
        Finset.mem_range] at ha
      rw [Prod.ext_iff]
      dsimp only
      omega
    · intro a ha
      rw [Finset.mem_filter, Finset.mem_product, Finset.mem_range, Finset.mem_range] at ha
      rw [Prod.ext_iff]
      dsimp only
      omega
    · intro a _
      rw [hF]
      dsimp only
      exact pairRatioM_comm kptsPrev kptsCurr kptMatches a.1 (a.2 + 1)
  rw [h1, hsplit1, hsplit2, hdiag, hlt, hgt, zero_add]

/-- Previous-frame keypoints on the x-axis, 100 px apart. -/
def dupKptsPrev : List (ℚ × ℚ) := [(0, 0), (100, 0), (200, 0), (300, 0)]

/-- Current-frame keypoints on the x-axis, 200 px apart. -/
def dupKptsCurr : List (ℚ × ℚ) := [(0, 0), (200, 0), (400, 0), (600, 0)]

/-- Four identity matches; every distinct pair is accepted, and the
interior pair (1, 2) is visited in both orders. -/
def dupMatches : List DMatch := [⟨0, 0⟩, ⟨1, 1⟩, ⟨2, 2⟩, ⟨3, 3⟩]

lemma ptDist_zero_left (b : ℚ) : ptDist 0 (b, 0) = |(b : ℝ)| := by
  unfold ptDist
  simp [Real.sqrt_sq_eq_abs]

example : (codeRatios dupKptsPrev dupKptsCurr dupMatches).length = 7 := by
  norm_num [codeRatios, dupKptsPrev, dupKptsCurr, dupMatches, List.range_succ,
    ptDist_xaxis, dblEps, ptDist_self, ptDist_zero_left, abs_of_nonneg]

lemma card_multiset_sum {ι α : Type} (s : Finset ι) (f : ι → Multiset α) :
    Multiset.card (∑ i ∈ s, f i) = ∑ i ∈ s, Multiset.card (f i) := by
  classical
  induction s using Finset.induction_on with
  | empty => simp
  | insert h ih => simp [Finset.sum_insert h, ih]

/-- C3, counterexample: with four matches whose pairwise distances all
qualify, the code's working list holds 7 ratios while the claim's
once-per-unordered-pair multiset holds at most 6 — the pair of the two
interior correspondences is double-counted. -/
theorem codeRatios_multiset_cex :
    (codeRatios dupKptsPrev dupKptsCurr dupMatches : Multiset ℝ) ≠
      claimRatios dupKptsPrev dupKptsCurr dupMatches := by
  have hlen : (codeRatios dupKptsPrev dupKptsCurr dupMatches).length = 7 := by
    norm_num [codeRatios, dupKptsPrev, dupKptsCurr, dupMatches, List.range_succ,
      ptDist_xaxis, dblEps, ptDist_self, ptDist_zero_left, abs_of_nonneg]
  have hcard : Multiset.card (claimRatios dupKptsPrev dupKptsCurr dupMatches) ≤ 6 := by
    unfold claimRatios
    rw [card_multiset_sum]
    have hone : ∀ p ∈ (Finset.range dupMatches.length ×ˢ
        Finset.range dupMatches.length).filter (fun p => p.1 < p.2),
        Multiset.card (pairRatioM dupKptsPrev dupKptsCurr dupMatches p.1 p.2) ≤ 1 := by
      intro p _
      unfold pairRatioM
      dsimp only
      split_ifs
      · simp
      · simp
    calc ∑ p ∈ (Finset.range dupMatches.length ×ˢ
          Finset.range dupMatches.length).filter (fun p => p.1 < p.2),
          Multiset.card (pairRatioM dupKptsPrev dupKptsCurr dupMatches p.1 p.2) ≤
        ∑ _p ∈ (Finset.range dupMatches.length ×ˢ
          Finset.range dupMatches.length).filter (fun p => p.1 < p.2), 1 :=
          Finset.sum_le_sum hone
      _ = 6 := by
          rw [Finset.sum_const, smul_eq_mul, mul_one]
          decide
  intro h
  have hc := congrArg Multiset.card h
  rw [Multiset.coe_card, hlen] at hc
  omega
